import Mathlib

/-!
# Verification of the hatchet GraphFrame core

A shallow embedding of `hatchet/graphframe.py`: a call graph paired with a
table of per-node metric rows.  Nodes are identified by natural numbers
(mirroring reference identity via the stable enumeration id), metric values
are `Option ℚ` where `none` plays the role of pandas' NaN ("no data"), and
the fuel arguments bound recursion depth exactly as Python's recursion limit
does.  Graph-level helpers that live outside `graphframe.py`
(`Graph.traverse`, `Node.traverse`, `Graph.is_tree`, `Graph.normalize`) are
modelled from the specification and are marked as such in their doc
comments.
-/

/-- "No data"-aware addition: pandas `+` propagates NaN through sums, so the
result is `none` as soon as one operand is `none` (used by
`generate_exclusive_columns`' running `inc_sum += ...`). -/
def oadd (a b : Option ℚ) : Option ℚ :=
  match a, b with
  | some x, some y => some (x + y)
  | _, _ => none

/-- "No data"-aware subtraction with NaN propagation (the
`df.loc[node, inc] - inc_sum` step of `generate_exclusive_columns`). -/
def osub (a b : Option ℚ) : Option ℚ :=
  match a, b with
  | some x, some y => some (x - y)
  | _, _ => none

/-- pandas `Series.sum(min_count=1)`: NaN entries are skipped, and the sum of
an all-NaN (or empty) series is NaN rather than 0. -/
def nansum (xs : List (Option ℚ)) : Option ℚ :=
  if (xs.filterMap id).isEmpty then none else some (xs.filterMap id).sum

theorem nansum_eq_none_iff (xs : List (Option ℚ)) :
    nansum xs = none ↔ ∀ x ∈ xs, x = none := by
  unfold nansum
  constructor
  · intro h x hx
    by_cases hemp : (xs.filterMap id).isEmpty
    · rcases x with _ | v
      · rfl
      · exfalso
        have : v ∈ xs.filterMap id := List.mem_filterMap.mpr ⟨some v, hx, rfl⟩
        rw [List.isEmpty_iff] at hemp
        simp [hemp] at this
    · simp [hemp] at h
  · intro h
    have hemp : xs.filterMap id = [] := by
      rw [List.eq_nil_iff_forall_not_mem]
      intro v hv
      rcases List.mem_filterMap.mp hv with ⟨x, hx, hxv⟩
      rw [h x hx] at hxv
      exact Option.noConfusion hxv
    simp [hemp]

/-- The call-graph topology: a root list and a children function on node ids.
The `frame` field carries each node's label (its Frame), needed only by
normalization, as an abstract code. -/
structure HGraph where
  roots : List Nat
  children : Nat → List Nat
  frame : Nat → Nat

/-- One metric column: node id to value, `none` meaning "no data" / missing
row. -/
def Tbl := Nat → Option Rat

/-- Modelled from the spec: graph pre-order traversal ("traversal (pre-order
and post-order, deterministic child ordering)"); `Graph.traverse` lives in
`graph.py`, which is not part of the sources.  Depth-first from a node,
skipping already-visited nodes; returns the extended visited set and the
yielded order.  `fuel` bounds recursion depth. -/
def preAux (g : HGraph) : Nat → Nat → List Nat → List Nat × List Nat
  | 0, _, vis => (vis, [])
  | fuel + 1, v, vis =>
    if v ∈ vis then (vis, [])
    else
      (g.children v).foldl
        (fun acc c =>
          let r := preAux g fuel c acc.1
          (r.1, acc.2 ++ r.2))
        (vis ++ [v], [v])

/-- Modelled from the spec: pre-order node list of the whole graph, the order
`Graph.traverse()` yields nodes in. -/
def preList (g : HGraph) (fuel : Nat) : List Nat :=
  (g.roots.foldl
    (fun acc r =>
      let p := preAux g fuel r acc.1
      (p.1, acc.2 ++ p.2))
    ([], [])).2

/-- Modelled from the spec: post-order traversal (children before parents),
the order `Graph.traverse(order="post")` yields nodes in. -/
def postAux (g : HGraph) : Nat → Nat → List Nat → List Nat × List Nat
  | 0, _, vis => (vis, [])
  | fuel + 1, v, vis =>
    if v ∈ vis then (vis, [])
    else
      let p := (g.children v).foldl
        (fun acc c =>
          let r := postAux g fuel c acc.1
          (r.1, acc.2 ++ r.2))
        (vis ++ [v], [])
      (p.1, p.2 ++ [v])

/-- Modelled from the spec: post-order node list of the whole graph. -/
def postList (g : HGraph) (fuel : Nat) : List Nat :=
  (g.roots.foldl
    (fun acc r =>
      let p := postAux g fuel r acc.1
      (p.1, acc.2 ++ p.2))
    ([], [])).2

/-- Modelled from the spec: `node.traverse()`, the transitive descendant set
of one node (self included), in pre-order. -/
def descList (g : HGraph) (fuel : Nat) (v : Nat) : List Nat :=
  (preAux g fuel v []).2

/-- Modelled from the spec: the node multiset reached by descending from a
node without a visited set; a duplicate label means some node is reachable
along two paths, i.e. the graph is not a tree. -/
def rawNodes (g : HGraph) : Nat → Nat → List Nat
  | 0, _ => []
  | fuel + 1, v =>
    v :: (g.children v).foldl (fun acc c => acc ++ rawNodes g fuel c) []

/-- Modelled from the spec: `Graph.is_tree` — the "tree-or-general-graph
classification": a single root from which every node is reached exactly
once. -/
def is_tree (g : HGraph) (fuel : Nat) : Bool :=
  g.roots.length == 1 &&
    (g.roots.foldl (fun acc r => acc ++ rawNodes g fuel r) []).Nodup

/-- One node's update in `subtree_sum`'s post-order sweep: at a node with
children, the out value becomes the `min_count=1` sum of the node's current
out value and its children's (already final) out values. -/
def sumStep (g : HGraph) (t : Tbl) (v : Nat) : Tbl :=
  if (g.children v).isEmpty then t
  else Function.update t v (nansum (t v :: (g.children v).map t))

/-- `GraphFrame.subtree_sum` on one column pair: the out column starts as a
copy of the input column (`_init_sum_columns`), then the post-order sweep
applies `sumStep` at every node. -/
def subtree_sum (g : HGraph) (fuel : Nat) (tbl : Tbl) : Tbl :=
  (postList g fuel).foldl (sumStep g) tbl

/-- `GraphFrame.subgraph_sum` on one column pair: delegates to `subtree_sum`
when the graph is a tree, otherwise sets each traversed node's out value to
the `min_count=1` sum of the input column over the node's full descendant
set (`node.traverse()`), self included. -/
def subgraph_sum (g : HGraph) (fuel : Nat) (tbl : Tbl) : Tbl :=
  if is_tree g fuel then subtree_sum g fuel tbl
  else
    (preList g fuel).foldl
      (fun t v => Function.update t v (nansum ((descList g fuel v).map tbl)))
      tbl

/-- `GraphFrame.generate_exclusive_columns` on one inclusive column, single
index: every traversed node gets inclusive value minus the NaN-propagating
sum of its direct children's inclusive values; the dict is seeded with `-1`
for rows never reached by the traversal. -/
def generate_exclusive (g : HGraph) (fuel : Nat) (inc : Tbl) : Tbl :=
  fun v =>
    if v ∈ preList g fuel then
      osub (inc v) ((g.children v).foldl (fun acc c => oadd acc (inc c)) (some 0))
    else some (-1)

/-- `GraphFrame.update_inclusive_columns` on one column pair: a no-op when no
exclusive metrics are registered, otherwise recompute the inclusive column
from the exclusive one via `subgraph_sum`. -/
def update_inclusive (g : HGraph) (fuel : Nat) (excMetrics : List String)
    (exc oldInc : Tbl) : Tbl :=
  if excMetrics.isEmpty then oldInc else subgraph_sum g fuel exc

/-- State threaded through `GraphFrame.squash`'s `rewire`: the visited set,
the `connections` map (old node to the set of clone nodes to connect for
it; a kept node's clone is identified with the node's own id), the child and
parent lists of the new (clone) nodes, and the accumulating new root list. -/
structure RWState where
  visited : List Nat
  conn : Nat → List Nat
  newChild : Nat → List Nat
  newPar : Nat → List Nat
  newRoots : List Nat

/-- One step of `rewire`'s entry loop `for n in connections[node]`: connect a
clone under the new parent if there is one (and not already connected),
otherwise record it as a new root. -/
def connectOne (par : Option Nat) (s : RWState) (n : Nat) : RWState :=
  match par with
  | some p =>
    if n ∈ s.newChild p then s
    else { s with newChild := Function.update s.newChild p (s.newChild p ++ [n]),
                  newPar := Function.update s.newPar n (s.newPar n ++ [p]) }
  | none =>
    if n ∈ s.newRoots then s else { s with newRoots := s.newRoots ++ [n] }

/-- `GraphFrame.squash`'s recursive `rewire`: connect the node's current
`connections` set under the new parent (or as roots), then, on a first
visit, descend into the children carrying the clone (if the node is kept,
i.e. appears in the table) or the inherited new parent; non-kept nodes
accumulate the union of their children's returned clone sets into their own
`connections` entry and return it, kept nodes return their own clone. -/
def rewire (g : HGraph) (K : List Nat) :
    Nat → Nat → Option Nat → RWState → RWState × List Nat
  | 0, _, _, s => (s, [])
  | fuel + 1, node, par, s0 =>
    let s1 := (s0.conn node).foldl (connectOne par) s0
    let eff : Option Nat := if node ∈ K then some node else par
    let res :=
      if node ∈ s1.visited then (s1, ([] : List Nat))
      else
        (g.children node).foldl
          (fun acc c =>
            let r := rewire g K fuel c eff acc.1
            (r.1, acc.2 ∪ r.2))
          ({ s1 with visited := s1.visited ++ [node] }, [])
    if node ∈ K then (res.1, [node])
    else
      ({ res.1 with conn := Function.update res.1.conn node (res.1.conn node ∪ res.2) },
       res.1.conn node ∪ res.2)

/-- The initial `rewire` state: `connections` starts as the old-to-new clone
map, a singleton for each node kept in the table. -/
def initRW (K : List Nat) : RWState :=
  { visited := [], conn := fun v => if v ∈ K then [v] else [],
    newChild := fun _ => [], newPar := fun _ => [], newRoots := [] }

/-- `for root in self.graph.roots: rewire(root, None, visited)`. -/
def rewireRoots (g : HGraph) (K : List Nat) (fuel : Nat) : RWState :=
  g.roots.foldl (fun s r => (rewire g K fuel r none s).1) (initRW K)

/-- A row of the metric table: its node key, its column values (`none` is
NaN), and the `_missing_node` indicator column (`none` while the column does
not exist). -/
structure URow where
  node : Nat
  val : String → Option Rat
  missing : Option Nat

/-- Duplicate-frame scan of one children list: each child whose frame equals
an earlier sibling's maps to that first sibling. -/
def dupScan (frame : Nat → Nat) : List Nat → List Nat → List (Nat × Nat)
  | _, [] => []
  | seen, c :: cs =>
    match seen.find? (fun s => frame s == frame c) with
    | some s => (c, s) :: dupScan frame seen cs
    | none => dupScan frame (seen ++ [c]) cs

/-- Modelled from the spec: `Graph.normalize` (in `graph.py`, not among the
sources) — "merging sibling nodes that carry identical frames, returning a
map of removed→kept node". -/
def normalizeMerges (g : HGraph) (fuel : Nat) : List (Nat × Nat) :=
  (preList g fuel).foldl (fun acc v => acc ++ dupScan g.frame [] (g.children v)) []

/-- `merges.get(n, n)`: the merged node for `n`, defaulting to `n` itself. -/
def mergeGet (merges : List (Nat × Nat)) (n : Nat) : Nat :=
  ((merges.find? (fun p => p.1 == n)).map Prod.snd).getD n

/-- The row aggregation at the end of `GraphFrame.squash`: group rows by
node, sum metric columns with `sum(min_count=1)` (an all-NaN group stays
NaN), take the first value in row order for every other column, and sort the
result by the index. -/
def groupAgg (metrics : List String) (rows : List URow) : List URow :=
  ((rows.map (fun r => r.node)).dedup.insertionSort (· ≤ ·)).map fun m =>
    let grp := rows.filter (fun r => r.node == m)
    { node := m,
      val := fun c =>
        if c ∈ metrics then nansum (grp.map (fun r => r.val c))
        else ((grp.head?).map (fun r => r.val c)).getD none,
      missing := ((grp.head?).map (fun r => r.missing)).getD none }

/-- Read one column of a row list as a `Tbl` (`df.loc[v, c]`). -/
def rowTbl (rows : List URow) (c : String) : Tbl :=
  fun v =>
    match rows.find? (fun r => r.node == v) with
    | some r => r.val c
    | none => none

/-- `GraphFrame.squash`: clone the nodes present in the table, `rewire` the
transitive structure from each root, normalize the new graph and remap rows
through the clone and merge maps, then aggregate rows that landed on the
same node.  Normalization merges sibling clones carrying identical frames:
per the spec's merge semantics each kept node absorbs the children of every
clone merged into it, and all child references are rewritten through the
merge map.  Returns the new graph and the aggregated rows; with
`update_inc_cols=True` the method finishes by `update_inclusive_columns` on
this pair, which the theorems state as an explicit `update_inclusive`
application to the result. -/
def squash (g : HGraph) (rows : List URow) (excMetrics incMetrics : List String)
    (fuel : Nat) : HGraph × List URow :=
  let K := (rows.map (fun r => r.node)).dedup
  let S := rewireRoots g K fuel
  let g1 : HGraph := { roots := S.newRoots, children := S.newChild, frame := g.frame }
  let merges := normalizeMerges g1 fuel
  let g2 : HGraph :=
    { roots := (g1.roots.map (mergeGet merges)).dedup,
      children := fun v =>
        (((v :: (merges.filter (fun p => p.2 == v)).map Prod.fst).flatMap
            (fun u => g1.children u)).map (mergeGet merges)).dedup,
      frame := g.frame }
  let rows1 := rows.map (fun r => { r with node := mergeGet merges r.node })
  (g2, groupAgg (excMetrics ++ incMetrics) rows1)

/-- The concrete scenario graph: `main`(0) with children `foo`(1) and
`bar`(2), and `foo` with child `baz`(3). -/
def scenarioGraph : HGraph :=
  { roots := [0],
    children := fun v => match v with | 0 => [1, 2] | 1 => [3] | _ => []
    frame := fun v => v }

/-- The scenario table: exclusive times main=1, foo=1, bar=2, baz=3 in the
`time` column. -/
def scenarioRows : List URow :=
  [{ node := 0, val := fun c => if c == "time" then some 1 else none, missing := none },
   { node := 1, val := fun c => if c == "time" then some 1 else none, missing := none },
   { node := 2, val := fun c => if c == "time" then some 2 else none, missing := none },
   { node := 3, val := fun c => if c == "time" then some 3 else none, missing := none }]

/-- The scenario table filtered to the rows of `{main, bar}`. -/
def scenarioFiltered : List URow := scenarioRows.filter (fun r => r.node ∈ [0, 2])

/-- The squash of the filtered scenario pair. -/
def scenarioSquash : HGraph × List URow :=
  squash scenarioGraph scenarioFiltered ["time"] ["time (inc)"] 10

/-- C1: on the concrete graph `main → {foo, bar}`, `foo → baz` with
exclusive times main=1, foo=1, bar=2, baz=3, `update_inclusive_columns`
yields inclusive values main=7, foo=4, bar=2, baz=3; and filtering the table
to the rows of `{main, bar}` followed by `squash` yields a 2-node tree whose
single root `main` has the single child `bar`, with inclusive(main)
recomputed as 3 by the squash's `update_inclusive_columns` step. -/
theorem c1_concrete_scenario :
    (update_inclusive scenarioGraph 10 ["time"] (rowTbl scenarioRows "time")
        (rowTbl scenarioRows "time") 0 = some 7 ∧
     update_inclusive scenarioGraph 10 ["time"] (rowTbl scenarioRows "time")
        (rowTbl scenarioRows "time") 1 = some 4 ∧
     update_inclusive scenarioGraph 10 ["time"] (rowTbl scenarioRows "time")
        (rowTbl scenarioRows "time") 2 = some 2 ∧
     update_inclusive scenarioGraph 10 ["time"] (rowTbl scenarioRows "time")
        (rowTbl scenarioRows "time") 3 = some 3) ∧
    (scenarioSquash.1.roots = [0] ∧
     scenarioSquash.1.children 0 = [2] ∧
     scenarioSquash.1.children 2 = [] ∧
     scenarioSquash.2.map (fun r => r.node) = [0, 2] ∧
     is_tree scenarioSquash.1 10 = true ∧
     update_inclusive scenarioSquash.1 10 ["time"] (rowTbl scenarioSquash.2 "time")
        (rowTbl scenarioSquash.2 "time (inc)") 0 = some 3) := by
  have ht : is_tree scenarioGraph 10 = true := by decide
  have hp : postList scenarioGraph 10 = [3, 1, 2, 0] := by decide
  have c0 : scenarioGraph.children 0 = [1, 2] := rfl
  have c1 : scenarioGraph.children 1 = [3] := rfl
  have c2 : scenarioGraph.children 2 = [] := rfl
  have c3 : scenarioGraph.children 3 = [] := rfl
  have e0 : rowTbl scenarioRows "time" 0 = some 1 := by norm_num [rowTbl, scenarioRows]
  have e1 : rowTbl scenarioRows "time" 1 = some 1 := by norm_num [rowTbl, scenarioRows]
  have e2 : rowTbl scenarioRows "time" 2 = some 2 := by norm_num [rowTbl, scenarioRows]
  have e3 : rowTbl scenarioRows "time" 3 = some 3 := by norm_num [rowTbl, scenarioRows]
  refine ⟨⟨?_, ?_, ?_, ?_⟩, by decide, by decide, by decide, by decide, by decide, ?_⟩
  · simp only [update_inclusive, subgraph_sum, ht, if_true, subtree_sum, sumStep, hp,
      List.foldl_cons, List.foldl_nil, c0, c1, c2, c3]
    norm_num [Function.update_apply, e0, e1, e2, e3, nansum, List.filterMap_cons,
      List.filterMap_nil]
  · simp only [update_inclusive, subgraph_sum, ht, if_true, subtree_sum, sumStep, hp,
      List.foldl_cons, List.foldl_nil, c0, c1, c2, c3]
    norm_num [Function.update_apply, e0, e1, e2, e3, nansum, List.filterMap_cons,
      List.filterMap_nil]
  · simp only [update_inclusive, subgraph_sum, ht, if_true, subtree_sum, sumStep, hp,
      List.foldl_cons, List.foldl_nil, c0, c1, c2, c3]
    norm_num [Function.update_apply, e0, e1, e2, e3, nansum, List.filterMap_cons,
      List.filterMap_nil]
  · simp only [update_inclusive, subgraph_sum, ht, if_true, subtree_sum, sumStep, hp,
      List.foldl_cons, List.foldl_nil, c0, c1, c2, c3]
    norm_num [Function.update_apply, e0, e1, e2, e3, nansum, List.filterMap_cons,
      List.filterMap_nil]
  · have hq1 : scenarioSquash.1.children 0 = [2] := by decide
    have hq2 : scenarioSquash.1.children 2 = [] := by decide
    have hqt : is_tree scenarioSquash.1 10 = true := by decide
    have hqp : postList scenarioSquash.1 10 = [2, 0] := by decide
    have hv0 : rowTbl scenarioSquash.2 "time" 0 = some 1 := by
      norm_num [scenarioSquash, squash, groupAgg, rowTbl, rewireRoots, rewire, initRW,
        scenarioGraph, scenarioFiltered, scenarioRows, nansum, normalizeMerges, mergeGet,
        preList, preAux, dupScan, connectOne, List.filterMap_cons, List.filterMap_nil]
      intro h
      exact absurd h (by simp)
    have hv2 : rowTbl scenarioSquash.2 "time" 2 = some 2 := by
      norm_num [scenarioSquash, squash, groupAgg, rowTbl, rewireRoots, rewire, initRW,
        scenarioGraph, scenarioFiltered, scenarioRows, nansum, normalizeMerges, mergeGet,
        preList, preAux, dupScan, connectOne, List.filterMap_cons, List.filterMap_nil]
      intro h
      exact absurd h (by simp)
    simp only [update_inclusive, subgraph_sum, hqt, if_true, subtree_sum, sumStep, hqp,
      List.foldl_cons, List.foldl_nil, hq1, hq2]
    norm_num [Function.update_apply, hv0, hv2, nansum, List.filterMap_cons,
      List.filterMap_nil]

/-- A diamond-shaped (non-tree) call graph: root 0 with children 1 and 2,
where 1 and 2 share the child 3. -/
def diamondGraph : HGraph :=
  { roots := [0],
    children := fun v => match v with | 0 => [1, 2] | 1 => [3] | 2 => [3] | _ => []
    frame := fun v => v }

/-- An all-present inclusive column on the diamond graph. -/
def diamondInc : Tbl := fun v =>
  match v with | 0 => some 2 | 1 => some 1 | 2 => some 1 | 3 => some 1 | _ => none

/-- C2 counterexample: on the diamond graph, after
`generate_exclusive_columns` and `update_inclusive_columns`, the root
violates `inclusive(node) = exclusive(node) + sum of inclusive(child)`: the
recomputed inclusive value counts the shared grandchild once, the right-hand
side twice. -/
theorem c2_roundtrip_counterexample :
    ¬ (update_inclusive diamondGraph 10 ["time"]
         (generate_exclusive diamondGraph 10 diamondInc) diamondInc 0 =
       oadd (generate_exclusive diamondGraph 10 diamondInc 0)
         ((diamondGraph.children 0).foldl
           (fun a c =>
             oadd a (update_inclusive diamondGraph 10 ["time"]
               (generate_exclusive diamondGraph 10 diamondInc) diamondInc c))
           (some 0))) := by
  have hnt : is_tree diamondGraph 10 = false := by decide
  have hpre : preList diamondGraph 10 = [0, 1, 3, 2] := by decide
  have hd0 : descList diamondGraph 10 0 = [0, 1, 3, 2] := by decide
  have hd1 : descList diamondGraph 10 1 = [1, 3] := by decide
  have hd2 : descList diamondGraph 10 2 = [2, 3] := by decide
  have hd3 : descList diamondGraph 10 3 = [3] := by decide
  have hc0 : diamondGraph.children 0 = [1, 2] := rfl
  have hc1 : diamondGraph.children 1 = [3] := rfl
  have hc2 : diamondGraph.children 2 = [3] := rfl
  have hc3 : diamondGraph.children 3 = [] := rfl
  have he0 : generate_exclusive diamondGraph 10 diamondInc 0 = some 0 := by
    norm_num [generate_exclusive, hpre, hc0, oadd, osub, diamondInc]
  have he1 : generate_exclusive diamondGraph 10 diamondInc 1 = some 0 := by
    norm_num [generate_exclusive, hpre, hc1, oadd, osub, diamondInc]
  have he2 : generate_exclusive diamondGraph 10 diamondInc 2 = some 0 := by
    norm_num [generate_exclusive, hpre, hc2, oadd, osub, diamondInc]
  have he3 : generate_exclusive diamondGraph 10 diamondInc 3 = some 1 := by
    norm_num [generate_exclusive, hpre, hc3, oadd, osub, diamondInc]
  have hu : ∀ v, update_inclusive diamondGraph 10 ["time"]
      (generate_exclusive diamondGraph 10 diamondInc) diamondInc v =
      (preList diamondGraph 10).foldl
        (fun t v => Function.update t v
          (nansum ((descList diamondGraph 10 v).map
            (generate_exclusive diamondGraph 10 diamondInc))))
        (generate_exclusive diamondGraph 10 diamondInc) v := by
    intro v
    rw [update_inclusive, if_neg (by simp), subgraph_sum, hnt]
    simp only [Bool.false_eq_true, if_false]
    rfl
  rw [hc0]
  simp only [List.foldl_cons, List.foldl_nil]
  rw [hu 0, hu 1, hu 2, hpre]
  simp only [List.foldl_cons, List.foldl_nil, hd0, hd1, hd2, hd3, List.map_cons,
    List.map_nil, he0, he1, he2, he3]
  norm_num [Function.update_apply, nansum, oadd, List.filterMap_cons, List.filterMap_nil]

/-- The node-remapping step of `squash`: rewrite each row's node key through
the final (clone-then-merge) node map before aggregation. -/
def remapRows (mu : Nat → Nat) (rows : List URow) : List URow :=
  rows.map fun r => { r with node := mu r.node }

/-- C3: in `squash`'s row aggregation, for every group of rows landing on
the same final node, the merged row sums every metric column with
`sum(min_count=1)` (so an all-"no data" group stays "no data" rather than
zero), takes the first value in pre-aggregation row order for every other
column, and is the unique output row for that node. -/
theorem c3_squash_group_aggregation (metrics : List String) (rows : List URow)
    (mu : Nat → Nat) (m : Nat)
    (hne : (remapRows mu rows).filter (fun r => r.node == m) ≠ []) :
    ∃ r ∈ groupAgg metrics (remapRows mu rows),
      r.node = m ∧
      (∀ c ∈ metrics, r.val c =
        nansum (((remapRows mu rows).filter (fun r => r.node == m)).map
          (fun x => x.val c))) ∧
      (∀ c ∈ metrics,
        (∀ x ∈ (remapRows mu rows).filter (fun r => r.node == m), x.val c = none) →
          r.val c = none) ∧
      (∀ c, c ∉ metrics → ∃ x0,
        ((remapRows mu rows).filter (fun r => r.node == m)).head? = some x0 ∧
          r.val c = x0.val c) ∧
      (groupAgg metrics (remapRows mu rows)).countP (fun r => r.node == m) = 1 := by
  have hmem : m ∈ (remapRows mu rows).map (fun r => r.node) := by
    rcases List.exists_mem_of_ne_nil _ hne with ⟨x, hx⟩
    have hx' := List.mem_filter.mp hx
    exact List.mem_map.mpr ⟨x, hx'.1, by simpa using hx'.2⟩
  have hkeys : m ∈ ((remapRows mu rows).map (fun r => r.node)).dedup.insertionSort (· ≤ ·) :=
    (List.perm_insertionSort _ _).mem_iff.mpr (List.mem_dedup.mpr hmem)
  refine ⟨_, List.mem_map.mpr ⟨m, hkeys, rfl⟩, rfl, ?_, ?_, ?_, ?_⟩
  · intro c hc
    simp only [groupAgg]
    rw [if_pos hc]
  · intro c hc hall
    simp only [groupAgg]
    rw [if_pos hc, nansum_eq_none_iff]
    intro x hx
    rcases List.mem_map.mp hx with ⟨y, hy, hxy⟩
    rw [← hxy]
    exact hall y hy
  · intro c hc
    refine ⟨_, List.head?_eq_head hne, ?_⟩
    simp only [groupAgg]
    rw [if_neg hc, List.head?_eq_head hne]
    rfl
  · have hnd : (((remapRows mu rows).map (fun r => r.node)).dedup.insertionSort (· ≤ ·)).Nodup :=
      (List.perm_insertionSort _ _).symm.nodup (List.nodup_dedup _)
    simp only [groupAgg]
    rw [List.countP_map]
    show List.countP (fun k : Nat => k == m)
      (((remapRows mu rows).map (fun r => r.node)).dedup.insertionSort (· ≤ ·)) = 1
    exact List.count_eq_one_of_mem hnd hkeys

/-- A two-row table whose rows both land on node 5 under the remap, one of
them with "no data". -/
def c3Rows : List URow :=
  [{ node := 1, val := fun _ => some 1, missing := none },
   { node := 2, val := fun _ => none, missing := none }]

/-- Witness for C3 at a concrete two-row group. -/
theorem c3_squash_group_aggregation_witness :
    ∃ r ∈ groupAgg ["time"] (remapRows (fun _ => 5) c3Rows),
      r.node = 5 ∧
      (∀ c ∈ ["time"], r.val c =
        nansum (((remapRows (fun _ => 5) c3Rows).filter (fun r => r.node == 5)).map
          (fun x => x.val c))) ∧
      (∀ c ∈ ["time"],
        (∀ x ∈ (remapRows (fun _ => 5) c3Rows).filter (fun r => r.node == 5), x.val c = none) →
          r.val c = none) ∧
      (∀ c, c ∉ ["time"] → ∃ x0,
        ((remapRows (fun _ => 5) c3Rows).filter (fun r => r.node == 5)).head? = some x0 ∧
          r.val c = x0.val c) ∧
      (groupAgg ["time"] (remapRows (fun _ => 5) c3Rows)).countP (fun r => r.node == 5) = 1 :=
  c3_squash_group_aggregation ["time"] c3Rows (fun _ => 5) 5 (by simp [remapRows, c3Rows])

/-- C7: `subgraph_sum` on a tree produces exactly the same resulting table
as `subtree_sum` on the same columns — the source delegates via the
`is_tree` check. -/
theorem c7_subgraph_sum_on_tree (g : HGraph) (fuel : Nat) (tbl : Tbl)
    (h : is_tree g fuel = true) :
    subgraph_sum g fuel tbl = subtree_sum g fuel tbl := by
  rw [subgraph_sum, h]
  simp

/-- A two-node tree for the C7 witness. -/
def c7Graph : HGraph :=
  { roots := [0], children := fun v => match v with | 0 => [1] | _ => [], frame := fun v => v }

/-- Witness for C7 on a concrete two-node tree. -/
theorem c7_subgraph_sum_on_tree_witness :
    is_tree c7Graph 3 = true ∧
    subgraph_sum c7Graph 3 (fun _ => none) = subtree_sum c7Graph 3 (fun _ => none) :=
  ⟨by decide, c7_subgraph_sum_on_tree c7Graph 3 (fun _ => none) (by decide)⟩

/-- A graph as `unify` sees it: an object identity (`gid`, standing for the
Python object id) and its node set. -/
structure MGraph where
  gid : Nat
  nodes : List Nat
deriving DecidableEq

/-- A GraphFrame as `unify` sees it: its graph, rows, and metric name
lists. -/
structure UFrame where
  graph : MGraph
  rows : List URow
  excMetrics : List String
  incMetrics : List String

/-- `self.dataframe.assign(_missing_node=np.zeros(...))`. -/
def zeroMissing (l : List URow) : List URow :=
  l.map fun r => { r with missing := some 0 }

/-- Modelled from the spec: the cython helper
`_gfm_cy.insert_one_for_self_nodes` is not among the sources; per the
calling comment it adds 1 to the `_missing_node` entry of every row of self
whose node is not in the other frame. -/
def bumpMissing (otherRows l : List URow) : List URow :=
  l.map fun r =>
    if otherRows.all (fun s => s.node != r.node) then
      { r with missing := some (r.missing.getD 0 + 1) }
    else r

/-- `GraphFrame._insert_missing_rows`: rows of other whose node is not in
self get `_missing_node = 2` and NaN in every metric column of the unioned
metric set, then are appended to self's rows; when self has rows missing
from other, self's rows get a zero-filled `_missing_node` column bumped to 1
on those rows.  The cython `fast_not_isin` (hash-based set difference, not
among the sources) is rendered as a node-membership filter, node ids
standing for the node hashes. -/
def insertMissingRows (selfRows otherRows : List URow) (allMetrics : List String) :
    List URow :=
  let onis := otherRows.filter (fun r => selfRows.all (fun s => s.node != r.node))
  let snio := selfRows.filter (fun r => otherRows.all (fun s => s.node != r.node))
  let self1 := if !snio.isEmpty then zeroMissing selfRows else selfRows
  let self2 := if !onis.isEmpty && snio.isEmpty then zeroMissing self1 else self1
  let self3 := if !snio.isEmpty then bumpMissing otherRows self2 else self2
  let onis2 := onis.map (fun r =>
    { r with missing := some 2,
             val := fun c => if c ∈ allMetrics then none else r.val c })
  self3 ++ onis2

/-- `GraphFrame.unify`: a no-op when both frames already share a graph
object; otherwise remap both tables' node keys through the union node map,
insert the rows missing from self, and point both frames at the union
graph. -/
def unifyGF (a b : UFrame) (union : MGraph) (nodeMap : Nat → Nat) : UFrame × UFrame :=
  if a.graph.gid = b.graph.gid then (a, b)
  else
    ({ a with graph := union,
              rows := insertMissingRows (remapRows nodeMap a.rows) (remapRows nodeMap b.rows)
                ((a.excMetrics ++ a.incMetrics ++ b.excMetrics ++ b.incMetrics).dedup) },
     { b with graph := union, rows := remapRows nodeMap b.rows })

/-- `zeroMissing` leaves the node column unchanged. -/
theorem nodes_zeroMissing (l : List URow) :
    (zeroMissing l).map (fun r => r.node) = l.map (fun r => r.node) := by
  simp [zeroMissing, List.map_map]

/-- `bumpMissing` leaves the node column unchanged. -/
theorem nodes_bumpMissing (o l : List URow) :
    (bumpMissing o l).map (fun r => r.node) = l.map (fun r => r.node) := by
  simp only [bumpMissing, List.map_map]
  refine List.map_congr_left fun r _ => ?_
  by_cases h : o.all (fun s => s.node != r.node) = true <;> simp [Function.comp, h]

/-- Every node key of `_insert_missing_rows`' result comes from one of the
two input tables. -/
theorem insertMissing_nodes (s o : List URow) (m : List String) (n : Nat)
    (h : n ∈ (insertMissingRows s o m).map (fun r => r.node)) :
    n ∈ s.map (fun r => r.node) ∨ n ∈ o.map (fun r => r.node) := by
  have hchain : ((if !(s.filter (fun r => o.all (fun s' => s'.node != r.node))).isEmpty then
        bumpMissing o
          (if !(o.filter (fun r => s.all (fun s' => s'.node != r.node))).isEmpty &&
              (s.filter (fun r => o.all (fun s' => s'.node != r.node))).isEmpty then
            zeroMissing (if !(s.filter (fun r => o.all (fun s' => s'.node != r.node))).isEmpty then
              zeroMissing s else s)
          else (if !(s.filter (fun r => o.all (fun s' => s'.node != r.node))).isEmpty then
              zeroMissing s else s))
      else
        (if !(o.filter (fun r => s.all (fun s' => s'.node != r.node))).isEmpty &&
            (s.filter (fun r => o.all (fun s' => s'.node != r.node))).isEmpty then
          zeroMissing (if !(s.filter (fun r => o.all (fun s' => s'.node != r.node))).isEmpty then
            zeroMissing s else s)
        else (if !(s.filter (fun r => o.all (fun s' => s'.node != r.node))).isEmpty then
            zeroMissing s else s))).map (fun r => r.node)) = s.map (fun r => r.node) := by
    repeat' split
    all_goals simp only [nodes_zeroMissing, nodes_bumpMissing]
  rcases List.mem_map.mp h with ⟨r, hr, hn⟩
  simp only [insertMissingRows] at hr
  rcases List.mem_append.mp hr with hr | hr
  · left
    rw [← hchain]
    exact hn ▸ List.mem_map.mpr ⟨r, hr, rfl⟩
  · right
    rcases List.mem_map.mp hr with ⟨x, hx, hx'⟩
    exact List.mem_map.mpr ⟨x, (List.mem_filter.mp hx).1,
      (congrArg URow.node hx').trans hn⟩

/-- C5: after `a.unify(b)` both frames hold the same graph, every node key
in either table exists in that shared graph, and `unify` changes nothing
when the graphs were already the same object. -/
theorem c5_unify_closure (a b : UFrame) (union : MGraph) (nodeMap : Nat → Nat)
    (hmap : ∀ n, (n ∈ a.rows.map (fun r => r.node) ∨ n ∈ b.rows.map (fun r => r.node)) →
      nodeMap n ∈ union.nodes)
    (hid : a.graph.gid = b.graph.gid → a.graph = b.graph)
    (hinva : ∀ n ∈ a.rows.map (fun r => r.node), n ∈ a.graph.nodes)
    (hinvb : ∀ n ∈ b.rows.map (fun r => r.node), n ∈ b.graph.nodes) :
    ((unifyGF a b union nodeMap).1.graph = (unifyGF a b union nodeMap).2.graph) ∧
    (∀ n ∈ (unifyGF a b union nodeMap).1.rows.map (fun r => r.node),
      n ∈ (unifyGF a b union nodeMap).1.graph.nodes) ∧
    (∀ n ∈ (unifyGF a b union nodeMap).2.rows.map (fun r => r.node),
      n ∈ (unifyGF a b union nodeMap).2.graph.nodes) ∧
    (a.graph.gid = b.graph.gid → unifyGF a b union nodeMap = (a, b)) := by
  by_cases hg : a.graph.gid = b.graph.gid
  · rw [unifyGF, if_pos hg]
    exact ⟨hid hg, hinva, hinvb, fun _ => rfl⟩
  · rw [unifyGF, if_neg hg]
    refine ⟨rfl, ?_, ?_, fun h => absurd h hg⟩
    · intro n hn
      rcases insertMissing_nodes _ _ _ n hn with h | h <;>
      · rcases List.mem_map.mp h with ⟨r, hr, hrn⟩
        rcases List.mem_map.mp hr with ⟨x, hx, hxr⟩
        subst hrn
        rw [← hxr]
        exact hmap x.node (by first
          | exact Or.inl (List.mem_map.mpr ⟨x, hx, rfl⟩)
          | exact Or.inr (List.mem_map.mpr ⟨x, hx, rfl⟩))
    · intro n hn
      rcases List.mem_map.mp hn with ⟨r, hr, hrn⟩
      rcases List.mem_map.mp hr with ⟨x, hx, hxr⟩
      subst hrn
      rw [← hxr]
      exact hmap x.node (Or.inr (List.mem_map.mpr ⟨x, hx, rfl⟩))

/-- C6: after `a.unify(b)`, a node with a row only in `b`'s table appears in
`a`'s table with "no data" in every metric column of the unioned metric set
and `_missing_node = 2`. -/
theorem c6_missing_row_semantics (a b : UFrame) (union : MGraph) (nodeMap : Nat → Nat) (n : Nat)
    (hgid : a.graph.gid ≠ b.graph.gid)
    (hb : n ∈ (remapRows nodeMap b.rows).map (fun r => r.node))
    (hna : n ∉ (remapRows nodeMap a.rows).map (fun r => r.node)) :
    ∃ r ∈ (unifyGF a b union nodeMap).1.rows,
      r.node = n ∧
      (∀ c ∈ a.excMetrics ++ a.incMetrics ++ b.excMetrics ++ b.incMetrics,
        r.val c = none) ∧
      r.missing = some 2 := by
  rw [unifyGF, if_neg hgid]
  rcases List.mem_map.mp hb with ⟨x, hx, hxn⟩
  have honis : x ∈ (remapRows nodeMap b.rows).filter
      (fun r => (remapRows nodeMap a.rows).all (fun s => s.node != r.node)) := by
    rw [List.mem_filter]
    refine ⟨hx, ?_⟩
    rw [List.all_eq_true]
    intro s hs
    simp only [bne_iff_ne, ne_eq]
    intro hcontra
    exact hna (List.mem_map.mpr ⟨s, hs, hcontra.trans hxn⟩)
  refine ⟨_, List.mem_append.mpr (Or.inr (List.mem_map.mpr ⟨x, honis, rfl⟩)), hxn, ?_, rfl⟩
  intro c hc
  simp only [insertMissingRows]
  rw [if_pos (List.mem_dedup.mpr hc)]

/-- A one-row frame on its own graph, for the C5/C6 witnesses. -/
def unifyFrameA : UFrame :=
  { graph := { gid := 0, nodes := [0] },
    rows := [{ node := 0, val := fun _ => none, missing := none }],
    excMetrics := ["time"], incMetrics := [] }

/-- A second one-row frame on a different graph object. -/
def unifyFrameB : UFrame :=
  { graph := { gid := 1, nodes := [1] },
    rows := [{ node := 1, val := fun _ => some 4, missing := none }],
    excMetrics := ["time"], incMetrics := [] }

/-- The union graph of the two witness frames. -/
def unionGraphAB : MGraph := { gid := 2, nodes := [0, 1] }

/-- Witness for C5 at two concrete one-row frames. -/
theorem c5_unify_closure_witness :
    ((unifyGF unifyFrameA unifyFrameB unionGraphAB id).1.graph = (unifyGF unifyFrameA unifyFrameB unionGraphAB id).2.graph) ∧
    (∀ n ∈ (unifyGF unifyFrameA unifyFrameB unionGraphAB id).1.rows.map (fun r => r.node),
      n ∈ (unifyGF unifyFrameA unifyFrameB unionGraphAB id).1.graph.nodes) ∧
    (∀ n ∈ (unifyGF unifyFrameA unifyFrameB unionGraphAB id).2.rows.map (fun r => r.node),
      n ∈ (unifyGF unifyFrameA unifyFrameB unionGraphAB id).2.graph.nodes) ∧
    (unifyFrameA.graph.gid = unifyFrameB.graph.gid → unifyGF unifyFrameA unifyFrameB unionGraphAB id = (unifyFrameA, unifyFrameB)) :=
  c5_unify_closure unifyFrameA unifyFrameB unionGraphAB id
    (by
      intro n h
      rcases h with h | h <;> simp [unifyFrameA, unifyFrameB] at h <;> subst h <;> simp [unionGraphAB])
    (fun h => absurd h (by decide))
    (by
      intro n h
      simp [unifyFrameA] at h
      subst h
      simp [unifyFrameA])
    (by
      intro n h
      simp [unifyFrameB] at h
      subst h
      simp [unifyFrameB])

/-- Witness for C6 at the concrete frames. -/
theorem c6_missing_row_semantics_witness :
    ∃ r ∈ (unifyGF unifyFrameA unifyFrameB unionGraphAB id).1.rows,
      r.node = 1 ∧
      (∀ c ∈ unifyFrameA.excMetrics ++ unifyFrameA.incMetrics ++ unifyFrameB.excMetrics ++ unifyFrameB.incMetrics,
        r.val c = none) ∧
      r.missing = some 2 :=
  c6_missing_row_semantics unifyFrameA unifyFrameB unionGraphAB id 1 (by decide)
    (by simp [remapRows, unifyFrameB])
    (by simp [remapRows, unifyFrameA])

/-- A GraphFrame object on the heap: its graph (shared by reference via
`graphId`, the Python object id), its rows, metric name lists and default
metric. -/
structure GFObj where
  graph : HGraph
  graphId : Nat
  rows : List URow
  excMetrics : List String
  incMetrics : List String
  defaultMetric : String

/-- The object heap: GraphFrame objects addressed by object id, so that
mutation and aliasing are explicit. -/
def World := Nat → Option GFObj

/-- `GraphFrame.copy`: a new GraphFrame object whose graph is shared with
the source and whose dataframe and metric lists are copies (the `pandas`
non-deep dataframe copy is taken at value level, per its documented
contract). -/
def copyGF (w : World) (src dst : Nat) : World :=
  match w src with
  | some g => Function.update w dst (some g)
  | none => w

/-- `GraphFrame.unify` acting on the heap: a no-op when the two objects
already share a graph object, otherwise remap both tables, insert missing
rows into self, and point both objects at the (new) union graph. -/
def unifyW (w : World) (i j : Nat) (uG : HGraph) (uGid : Nat) (nodeMap : Nat → Nat) :
    World :=
  match w i, w j with
  | some a, some b =>
    if a.graphId = b.graphId then w
    else
      Function.update
        (Function.update w i
          (some { a with graph := uG, graphId := uGid,
                         rows := insertMissingRows (remapRows nodeMap a.rows)
                           (remapRows nodeMap b.rows)
                           ((a.excMetrics ++ a.incMetrics ++
                             b.excMetrics ++ b.incMetrics).dedup) }))
        j
        (some { b with graph := uG, graphId := uGid, rows := remapRows nodeMap b.rows })
  | _, _ => w

/-- `self.dataframe.update(op(other.dataframe[all_metrics]))`: align the
operand frames on node keys over the metric columns, apply the
NaN-propagating arithmetic, and keep self's value wherever the result is
NaN. -/
def dfUpdate (selfRows otherRows : List URow) (op : Rat → Rat → Rat)
    (metrics : List String) : List URow :=
  selfRows.map fun r =>
    { r with val := fun c =>
        if c ∈ metrics then
          let ov := (otherRows.find? (fun s => s.node == r.node)).bind (fun s => s.val c)
          match r.val c, ov with
          | some x, some y => some (op x y)
          | _, _ => r.val c
        else r.val c }

/-- `GraphFrame._operator`: apply the column-wise operator over the unioned
exclusive+inclusive metric set and store the result in self. -/
def operatorW (w : World) (i j : Nat) (op : Rat → Rat → Rat) : World :=
  match w i, w j with
  | some a, some b =>
    let allM := (a.excMetrics ++ a.incMetrics ++ b.excMetrics ++ b.incMetrics).dedup
    Function.update w i (some { a with rows := dfUpdate a.rows b.rows op allM })
  | _, _ => w

/-- The shared shape of `GraphFrame.add/sub/mul/div`: copy both operands,
unify the copies, and apply `_operator` to them, returning the modified
self-copy. -/
def binopW (op : Rat → Rat → Rat) (w : World) (s o cs co : Nat) (uG : HGraph)
    (uGid : Nat) (nodeMap : Nat → Nat) : World × Nat :=
  let w1 := copyGF w s cs
  let w2 := copyGF w1 o co
  let w3 := unifyW w2 cs co uG uGid nodeMap
  (operatorW w3 cs co op, cs)

/-- `GraphFrame.add`. -/
def addW : World → Nat → Nat → Nat → Nat → HGraph → Nat → (Nat → Nat) → World × Nat :=
  binopW (· + ·)

/-- `GraphFrame.sub`. -/
def subW : World → Nat → Nat → Nat → Nat → HGraph → Nat → (Nat → Nat) → World × Nat :=
  binopW (· - ·)

/-- `GraphFrame.mul`. -/
def mulW : World → Nat → Nat → Nat → Nat → HGraph → Nat → (Nat → Nat) → World × Nat :=
  binopW (· * ·)

/-- `GraphFrame.div` (float division, no NaN-to-zero coercion). -/
def divW : World → Nat → Nat → Nat → Nat → HGraph → Nat → (Nat → Nat) → World × Nat :=
  binopW (· / ·)

/-- `copy` writes only at the destination id. -/
theorem copyGF_ne (w : World) (src dst k : Nat) (hk : k ≠ dst) :
    copyGF w src dst k = w k := by
  unfold copyGF
  rcases hw : w src with _ | g
  · simp only [hw]
  · simp only [hw]
    exact Function.update_noteq hk _ _

/-- `unify` writes only at its two operand ids. -/
theorem unifyW_ne (w : World) (i j k : Nat) (uG : HGraph) (uGid : Nat)
    (nodeMap : Nat → Nat) (hi : k ≠ i) (hj : k ≠ j) :
    unifyW w i j uG uGid nodeMap k = w k := by
  unfold unifyW
  rcases hwi : w i with _ | a
  · simp only [hwi]
  · rcases hwj : w j with _ | b
    · simp only [hwi, hwj]
    · simp only [hwi, hwj]
      split
      · rfl
      · rw [Function.update_noteq hj, Function.update_noteq hi]

/-- `_operator` writes only at the self id. -/
theorem operatorW_ne (w : World) (i j k : Nat) (op : Rat → Rat → Rat) (hi : k ≠ i) :
    operatorW w i j op k = w k := by
  unfold operatorW
  rcases hwi : w i with _ | a
  · simp only [hwi]
  · rcases hwj : w j with _ | b
    · simp only [hwi, hwj]
    · simp only [hwi, hwj]
      exact Function.update_noteq hi _ _

/-- A binary operator run leaves every object other than the two fresh
copies untouched. -/
theorem binopW_preserves (op : Rat → Rat → Rat) (w : World) (s o cs co : Nat)
    (uG : HGraph) (uGid : Nat) (nodeMap : Nat → Nat) (k : Nat)
    (hcs : k ≠ cs) (hco : k ≠ co) :
    (binopW op w s o cs co uG uGid nodeMap).1 k = w k := by
  show (operatorW (unifyW (copyGF (copyGF w s cs) o co) cs co uG uGid nodeMap)
    cs co op) k = w k
  rw [operatorW_ne _ _ _ _ _ hcs, unifyW_ne _ _ _ _ _ _ _ hcs hco,
    copyGF_ne _ _ _ _ hco, copyGF_ne _ _ _ _ hcs]

/-- C8: `add`, `sub`, `mul` and `div` return a new GraphFrame (one of the
fresh copies) and leave both operand objects — graphs, tables and metric
lists — exactly as they were. -/
theorem c8_operators_nonmutating (w : World) (s o cs co : Nat) (uG : HGraph) (uGid : Nat)
    (nodeMap : Nat → Nat)
    (hs1 : s ≠ cs) (hs2 : s ≠ co) (ho1 : o ≠ cs) (ho2 : o ≠ co) :
    ((addW w s o cs co uG uGid nodeMap).1 s = w s ∧
     (addW w s o cs co uG uGid nodeMap).1 o = w o ∧
     (addW w s o cs co uG uGid nodeMap).2 ≠ s ∧
     (addW w s o cs co uG uGid nodeMap).2 ≠ o) ∧
    ((subW w s o cs co uG uGid nodeMap).1 s = w s ∧
     (subW w s o cs co uG uGid nodeMap).1 o = w o ∧
     (subW w s o cs co uG uGid nodeMap).2 ≠ s ∧
     (subW w s o cs co uG uGid nodeMap).2 ≠ o) ∧
    ((mulW w s o cs co uG uGid nodeMap).1 s = w s ∧
     (mulW w s o cs co uG uGid nodeMap).1 o = w o ∧
     (mulW w s o cs co uG uGid nodeMap).2 ≠ s ∧
     (mulW w s o cs co uG uGid nodeMap).2 ≠ o) ∧
    ((divW w s o cs co uG uGid nodeMap).1 s = w s ∧
     (divW w s o cs co uG uGid nodeMap).1 o = w o ∧
     (divW w s o cs co uG uGid nodeMap).2 ≠ s ∧
     (divW w s o cs co uG uGid nodeMap).2 ≠ o) :=
  ⟨⟨binopW_preserves _ w s o cs co uG uGid nodeMap s hs1 hs2,
    binopW_preserves _ w s o cs co uG uGid nodeMap o ho1 ho2,
    Ne.symm hs1, Ne.symm ho1⟩,
   ⟨binopW_preserves _ w s o cs co uG uGid nodeMap s hs1 hs2,
    binopW_preserves _ w s o cs co uG uGid nodeMap o ho1 ho2,
    Ne.symm hs1, Ne.symm ho1⟩,
   ⟨binopW_preserves _ w s o cs co uG uGid nodeMap s hs1 hs2,
    binopW_preserves _ w s o cs co uG uGid nodeMap o ho1 ho2,
    Ne.symm hs1, Ne.symm ho1⟩,
   ⟨binopW_preserves _ w s o cs co uG uGid nodeMap s hs1 hs2,
    binopW_preserves _ w s o cs co uG uGid nodeMap o ho1 ho2,
    Ne.symm hs1, Ne.symm ho1⟩⟩

/-- The polymorphic `filter` argument: a callable row predicate, an
externally-resolved query match set (the Query Engine collaborator's
`apply` result), or an unrecognized object. -/
inductive FilterObj where
  | callable (f : URow → Bool)
  | queryMatches (ms : List Nat)
  | invalid

/-- `InvalidFilter` and `EmptyFilter` (the spec's `InvalidFilterError` and
`EmptyResultError`). -/
inductive FilterErr where
  | invalidFilter
  | emptyFilter
deriving DecidableEq

/-- `GraphFrame.filter` on the heap: filter a copy of the dataframe by the
predicate (the parallel path is partition-filter-concatenate and agrees
with the sequential one), fail with `EmptyFilter` on an empty result, and
return a new GraphFrame sharing self's graph — squashed first when `squash`
is set (`squash` allocates a fresh graph object). -/
def filterW (w : World) (i resId : Nat) (obj : FilterObj) (sq : Bool)
    (fuel newGid : Nat) : Except FilterErr (World × Nat) :=
  match w i with
  | none => .error .invalidFilter
  | some gf =>
    let dfCopy := gf.rows
    let filtered : Except FilterErr (List URow) :=
      match obj with
      | .callable f => .ok (dfCopy.filter f)
      | .queryMatches ms => .ok (dfCopy.filter (fun r => r.node ∈ ms))
      | .invalid => .error .invalidFilter
    match filtered with
    | .error e => .error e
    | .ok fd =>
      if fd.length = 0 then .error .emptyFilter
      else
        let fgf : GFObj :=
          { graph := gf.graph, graphId := gf.graphId, rows := fd,
            excMetrics := gf.excMetrics, incMetrics := gf.incMetrics,
            defaultMetric := gf.defaultMetric }
        if sq then
          let p := squash fgf.graph fgf.rows fgf.excMetrics fgf.incMetrics fuel
          .ok (Function.update w resId
            (some { fgf with graph := p.1, graphId := newGid, rows := p.2 }), resId)
        else
          .ok (Function.update w resId (some fgf), resId)

/-- Aggregating a nonempty row list yields a nonempty row list. -/
theorem groupAgg_ne_nil (metrics : List String) (rows : List URow) (h : rows ≠ []) :
    groupAgg metrics rows ≠ [] := by
  rcases List.exists_mem_of_ne_nil rows h with ⟨x, hx⟩
  have : x.node ∈ ((rows.map (fun r => r.node)).dedup.insertionSort (· ≤ ·)) :=
    (List.perm_insertionSort _ _).mem_iff.mpr
      (List.mem_dedup.mpr (List.mem_map.mpr ⟨x, hx, rfl⟩))
  intro hcon
  rw [groupAgg] at hcon
  rcases List.map_eq_nil_iff.mp hcon with hnil
  rw [hnil] at this
  exact List.not_mem_nil _ this

/-- `squash` of a nonempty table keeps at least one row. -/
theorem squash_rows_ne_nil (g : HGraph) (rows : List URow) (eM iM : List String)
    (fuel : Nat) (h : rows ≠ []) : (squash g rows eM iM fuel).2 ≠ [] := by
  simp only [squash]
  exact groupAgg_ne_nil _ _ (fun hc => h (List.map_eq_nil_iff.mp hc))

/-- C9: `filter` raises `EmptyFilter` when the predicate matches no rows,
and an ok result never carries an empty table. -/
theorem c9_filter_empty_result (w : World) (i resId : Nat) (gf : GFObj) (pred : URow → Bool)
    (sq : Bool) (fuel newGid : Nat) (hw : w i = some gf) :
    ((∀ r ∈ gf.rows, pred r = false) →
      filterW w i resId (.callable pred) sq fuel newGid = .error .emptyFilter) ∧
    (∀ obj w' rid, filterW w i resId obj sq fuel newGid = .ok (w', rid) →
      ∀ g', w' rid = some g' → g'.rows ≠ []) := by
  constructor
  · intro hall
    have hfil : gf.rows.filter pred = [] := by
      rw [List.filter_eq_nil_iff]
      intro r hr
      simp [hall r hr]
    unfold filterW
    rw [hw]
    simp only [hfil]
    rfl
  · intro obj w' rid heq g' hg'
    unfold filterW at heq
    rw [hw] at heq
    rcases obj with f | ms | _
    · dsimp only at heq
      by_cases hlen : (gf.rows.filter f).length = 0
      · rw [if_pos hlen] at heq
        exact absurd heq (by simp)
      · rw [if_neg hlen] at heq
        rcases Bool.eq_false_or_eq_true sq with hsq | hsq
        · rw [hsq, if_pos rfl] at heq
          injection heq with h2
          injection h2 with hw' hrid
          rw [← hw', ← hrid] at hg'
          rw [Function.update_same] at hg'
          injection hg' with hgf
          rw [← hgf]
          refine squash_rows_ne_nil _ _ _ _ _ ?_
          exact fun hc => hlen (List.length_eq_zero.mpr hc)
        · rw [hsq, if_neg Bool.false_ne_true] at heq
          injection heq with h2
          injection h2 with hw' hrid
          rw [← hw', ← hrid] at hg'
          rw [Function.update_same] at hg'
          injection hg' with hgf
          rw [← hgf]
          exact fun hc => hlen (List.length_eq_zero.mpr hc)
    · dsimp only at heq
      by_cases hlen : (gf.rows.filter (fun r => r.node ∈ ms)).length = 0
      · rw [if_pos hlen] at heq
        exact absurd heq (by simp)
      · rw [if_neg hlen] at heq
        rcases Bool.eq_false_or_eq_true sq with hsq | hsq
        · rw [hsq, if_pos rfl] at heq
          injection heq with h2
          injection h2 with hw' hrid
          rw [← hw', ← hrid] at hg'
          rw [Function.update_same] at hg'
          injection hg' with hgf
          rw [← hgf]
          refine squash_rows_ne_nil _ _ _ _ _ ?_
          exact fun hc => hlen (List.length_eq_zero.mpr hc)
        · rw [hsq, if_neg Bool.false_ne_true] at heq
          injection heq with h2
          injection h2 with hw' hrid
          rw [← hw', ← hrid] at hg'
          rw [Function.update_same] at hg'
          injection hg' with hgf
          rw [← hgf]
          exact fun hc => hlen (List.length_eq_zero.mpr hc)
    · dsimp only at heq
      exact absurd heq (by simp)

/-- The GraphFrame built at the end of `filter`: self's graph, the filtered
rows, and self's metric bookkeeping. -/
def filteredObj (gf : GFObj) (pred : URow → Bool) : GFObj :=
  { graph := gf.graph, graphId := gf.graphId, rows := gf.rows.filter pred,
    excMetrics := gf.excMetrics, incMetrics := gf.incMetrics,
    defaultMetric := gf.defaultMetric }

/-- C10: `filter` with `squash=False` and a callable predicate matching at
least one row returns a new GraphFrame sharing self's graph object, with
self's metric lists and default metric, and leaves self's own table
untouched. -/
theorem c10_filter_no_squash (w : World) (i resId : Nat) (gf : GFObj) (pred : URow → Bool)
    (fuel newGid : Nat) (hw : w i = some gf) (r0 : URow) (hr0 : r0 ∈ gf.rows)
    (hp : pred r0 = true) (hres : resId ≠ i) :
    ∃ w', filterW w i resId (.callable pred) false fuel newGid = .ok (w', resId) ∧
      w' i = w i ∧
      w' resId = some (filteredObj gf pred) := by
  have hne : (gf.rows.filter pred).length ≠ 0 := by
    have hmem : r0 ∈ gf.rows.filter pred := List.mem_filter.mpr ⟨hr0, hp⟩
    intro hc
    rw [List.length_eq_zero] at hc
    rw [hc] at hmem
    exact List.not_mem_nil _ hmem
  refine ⟨Function.update w resId (some (filteredObj gf pred)), ?_, ?_, ?_⟩
  · unfold filterW
    rw [hw]
    dsimp only
    rw [if_neg hne, if_neg Bool.false_ne_true]
    rfl
  · exact Function.update_noteq (Ne.symm hres) (some (filteredObj gf pred)) w
  · exact Function.update_same resId (some (filteredObj gf pred)) w

/-- An empty graph for the heap witnesses. -/
def wGraph : HGraph := { roots := [], children := fun _ => [], frame := fun _ => 0 }

/-- A single row for the heap witnesses. -/
def wRow : URow := { node := 0, val := fun _ => none, missing := none }

/-- A heap GraphFrame object at id 0. -/
def gfA : GFObj :=
  { graph := wGraph, graphId := 0, rows := [wRow],
    excMetrics := ["time"], incMetrics := [], defaultMetric := "time" }

/-- A heap GraphFrame object at id 1, on a different graph object. -/
def gfB : GFObj :=
  { graph := wGraph, graphId := 1, rows := [wRow],
    excMetrics := ["time"], incMetrics := [], defaultMetric := "time" }

/-- A two-object heap. -/
def wW : World := fun k => if k = 0 then some gfA else if k = 1 then some gfB else none

/-- Witness for C8 on the concrete two-object heap. -/
theorem c8_operators_nonmutating_witness :
    ((addW wW 0 1 2 3 wGraph 9 id).1 0 = wW 0 ∧
     (addW wW 0 1 2 3 wGraph 9 id).1 1 = wW 1 ∧
     (addW wW 0 1 2 3 wGraph 9 id).2 ≠ 0 ∧
     (addW wW 0 1 2 3 wGraph 9 id).2 ≠ 1) ∧
    ((subW wW 0 1 2 3 wGraph 9 id).1 0 = wW 0 ∧
     (subW wW 0 1 2 3 wGraph 9 id).1 1 = wW 1 ∧
     (subW wW 0 1 2 3 wGraph 9 id).2 ≠ 0 ∧
     (subW wW 0 1 2 3 wGraph 9 id).2 ≠ 1) ∧
    ((mulW wW 0 1 2 3 wGraph 9 id).1 0 = wW 0 ∧
     (mulW wW 0 1 2 3 wGraph 9 id).1 1 = wW 1 ∧
     (mulW wW 0 1 2 3 wGraph 9 id).2 ≠ 0 ∧
     (mulW wW 0 1 2 3 wGraph 9 id).2 ≠ 1) ∧
    ((divW wW 0 1 2 3 wGraph 9 id).1 0 = wW 0 ∧
     (divW wW 0 1 2 3 wGraph 9 id).1 1 = wW 1 ∧
     (divW wW 0 1 2 3 wGraph 9 id).2 ≠ 0 ∧
     (divW wW 0 1 2 3 wGraph 9 id).2 ≠ 1) :=
  c8_operators_nonmutating wW 0 1 2 3 wGraph 9 id (by decide) (by decide) (by decide) (by decide)

/-- Witness for C9 on the concrete heap. -/
theorem c9_filter_empty_result_witness :
    ((∀ r ∈ gfA.rows, (fun _ : URow => false) r = false) →
      filterW wW 0 5 (.callable (fun _ => false)) false 3 9 = .error .emptyFilter) ∧
    (∀ obj w' rid, filterW wW 0 5 obj false 3 9 = .ok (w', rid) →
      ∀ g', w' rid = some g' → g'.rows ≠ []) :=
  c9_filter_empty_result wW 0 5 gfA (fun _ => false) false 3 9 rfl

/-- Witness for C10 on the concrete heap. -/
theorem c10_filter_no_squash_witness :
    ∃ w', filterW wW 0 5 (.callable (fun _ => true)) false 3 9 = .ok (w', 5) ∧
      w' 0 = wW 0 ∧
      w' 5 = some (filteredObj gfA (fun _ => true)) :=
  c10_filter_no_squash wW 0 5 gfA (fun _ => true) 3 9 rfl wRow (by simp [gfA]) rfl (by decide)

/-- Rose trees with Nat labels, the abstract form of a hatchet graph whose
node set forms a tree (each node one parent). -/
inductive HTree where
  | mk (lab : Nat) (kids : List HTree)

def HTree.lab : HTree → Nat
  | .mk v _ => v

def HTree.kids : HTree → List HTree
  | .mk _ ks => ks

mutual
/-- Pre-order label list of a tree / forest. -/
def flattenT : HTree → List Nat
  | .mk v ks => v :: flattenF ks
def flattenF : List HTree → List Nat
  | [] => []
  | t :: ts => flattenT t ++ flattenF ts
end

mutual
/-- Post-order label list of a tree / forest, matching `traverse(order="post")`. -/
def postT : HTree → List Nat
  | .mk v ks => postF ks ++ [v]
def postF : List HTree → List Nat
  | [] => []
  | t :: ts => postT t ++ postF ts
end

mutual
/-- Children table of a tree / forest: label paired with child labels. -/
def chT : HTree → List (Nat × List Nat)
  | .mk v ks => (v, ks.map HTree.lab) :: chF ks
def chF : List HTree → List (Nat × List Nat)
  | [] => []
  | t :: ts => chT t ++ chF ts
end

mutual
/-- All subtrees of a tree / forest. -/
def subT : HTree → List HTree
  | .mk v ks => .mk v ks :: subF ks
def subF : List HTree → List HTree
  | [] => []
  | t :: ts => subT t ++ subF ts
end

mutual
/-- Height of a tree / forest, a fuel bound for the traversals. -/
def htT : HTree → Nat
  | .mk _ ks => htF ks + 1
def htF : List HTree → Nat
  | [] => 0
  | t :: ts => max (htT t) (htF ts)
end

theorem htT_le_htF {k : HTree} : ∀ {ts : List HTree}, k ∈ ts → htT k ≤ htF ts
  | t :: ts, h => by
    rcases List.mem_cons.mp h with h | h
    · rw [h, htF]
      exact Nat.le_max_left _ _
    · rw [htF]
      exact le_trans (htT_le_htF h) (Nat.le_max_right _ _)

theorem htT_kid_lt {k : HTree} {v : Nat} {ks : List HTree} (h : k ∈ ks) :
    htT k < htT (.mk v ks) := by
  rw [htT]
  exact Nat.lt_succ_of_le (htT_le_htF h)

theorem sizeOf_kid_lt {k : HTree} {v : Nat} {ks : List HTree} (h : k ∈ ks) :
    sizeOf k < sizeOf (HTree.mk v ks) := by
  have := List.sizeOf_lt_of_mem h
  simp only [HTree.mk.sizeOf_spec]
  omega

theorem HTree.ind' {P : HTree → Prop}
    (h : ∀ v ks, (∀ k ∈ ks, P k) → P (.mk v ks)) : ∀ t, P t := by
  have key : ∀ n t, sizeOf t = n → P t := by
    intro n
    induction n using Nat.strong_induction_on with
    | _ n IH =>
      intro t ht
      rcases t with ⟨v, ks⟩
      exact h v ks fun k hk => IH (sizeOf k) (ht ▸ sizeOf_kid_lt hk) k rfl
  exact fun t => key (sizeOf t) t rfl

/-- The `HGraph` of a rose tree: one root, children read off the children
table. -/
def toGraphT (t : HTree) : HGraph :=
  { roots := [t.lab],
    children := fun v => ((chT t).lookup v).getD [],
    frame := fun _ => 0 }

theorem flattenF_eq (ts : List HTree) : flattenF ts = ts.flatMap flattenT := by
  induction ts with
  | nil => rfl
  | cons t ts ih => simp [flattenF, ih]

theorem chF_eq (ts : List HTree) : chF ts = ts.flatMap chT := by
  induction ts with
  | nil => rfl
  | cons t ts ih => simp [chF, ih]

theorem subF_eq (ts : List HTree) : subF ts = ts.flatMap subT := by
  induction ts with
  | nil => rfl
  | cons t ts ih => simp [subF, ih]

theorem postF_eq (ts : List HTree) : postF ts = ts.flatMap postT := by
  induction ts with
  | nil => rfl
  | cons t ts ih => simp [postF, ih]

theorem chT_keys : ∀ t : HTree, (chT t).map Prod.fst = flattenT t := by
  refine HTree.ind' ?_
  intro v ks IH
  rw [chT, flattenT, List.map_cons]
  congr 1
  rw [chF_eq, flattenF_eq, List.map_flatMap]
  exact List.flatMap_congr IH

theorem lookup_of_mem {l : List (Nat × List Nat)} {k : Nat} {v : List Nat}
    (hnd : (l.map Prod.fst).Nodup) (h : (k, v) ∈ l) : l.lookup k = some v := by
  induction l with
  | nil => cases h
  | cons p l ih =>
    rcases List.mem_cons.mp h with h | h
    · rw [← h, List.lookup]
      simp
    · rw [List.lookup]
      have hk : p.1 ≠ k := by
        intro hc
        have : k ∈ l.map Prod.fst := List.mem_map.mpr ⟨(k, v), h, rfl⟩
        rw [List.map_cons] at hnd
        exact (List.nodup_cons.mp hnd).1 (hc ▸ this)
      rw [beq_eq_false_iff_ne.mpr (Ne.symm hk)]
      exact ih (List.nodup_cons.mp (List.map_cons _ _ _ ▸ hnd)).2 h

theorem self_mem_subT (t : HTree) : t ∈ subT t := by
  rcases t with ⟨v, ks⟩
  rw [subT]
  exact List.mem_cons_self _ _

theorem mem_subF {s : HTree} {ts : List HTree} :
    s ∈ subF ts ↔ ∃ k ∈ ts, s ∈ subT k := by
  rw [subF_eq]
  exact List.mem_flatMap

theorem mem_chF {x : Nat × List Nat} {ts : List HTree} :
    x ∈ chF ts ↔ ∃ k ∈ ts, x ∈ chT k := by
  rw [chF_eq]
  exact List.mem_flatMap

theorem mem_flattenF {w : Nat} {ts : List HTree} :
    w ∈ flattenF ts ↔ ∃ k ∈ ts, w ∈ flattenT k := by
  rw [flattenF_eq]
  exact List.mem_flatMap

theorem chT_sub_mem : ∀ t : HTree, ∀ s ∈ subT t, (s.lab, s.kids.map HTree.lab) ∈ chT t := by
  refine HTree.ind' ?_
  intro v ks IH s hs
  rw [subT] at hs
  rcases List.mem_cons.mp hs with h | h
  · rw [h, chT]
    exact List.mem_cons_self _ _
  · rcases mem_subF.mp h with ⟨k, hk, hsk⟩
    rw [chT]
    exact List.mem_cons_of_mem _ (mem_chF.mpr ⟨k, hk, IH k hk s hsk⟩)

theorem chT_mem_sub : ∀ t : HTree, ∀ p ∈ chT t,
    ∃ s ∈ subT t, s.lab = p.1 ∧ s.kids.map HTree.lab = p.2 := by
  refine HTree.ind' ?_
  intro v ks IH p hp
  rw [chT] at hp
  rcases List.mem_cons.mp hp with h | h
  · exact ⟨.mk v ks, self_mem_subT _, by rw [h]; rfl, by rw [h]; rfl⟩
  · rcases mem_chF.mp h with ⟨k, hk, hpk⟩
    rcases IH k hk p hpk with ⟨s, hs, h1, h2⟩
    exact ⟨s, by rw [subT]; exact List.mem_cons_of_mem _ (mem_subF.mpr ⟨k, hk, hs⟩),
      h1, h2⟩

theorem kid_mem_subT : ∀ t : HTree, ∀ s ∈ subT t, ∀ k ∈ s.kids, k ∈ subT t := by
  refine HTree.ind' ?_
  intro v ks IH s hs k hk
  rw [subT] at hs ⊢
  rcases List.mem_cons.mp hs with h | h
  · rw [h] at hk
    exact List.mem_cons_of_mem _ (mem_subF.mpr ⟨k, hk, self_mem_subT k⟩)
  · rcases mem_subF.mp h with ⟨k', hk', hsk⟩
    exact List.mem_cons_of_mem _ (mem_subF.mpr ⟨k', hk', IH k' hk' s hsk k hk⟩)

theorem lab_mem_flattenT (s : HTree) : s.lab ∈ flattenT s := by
  rcases s with ⟨v, ks⟩
  rw [flattenT]
  exact List.mem_cons_self _ _

theorem flattenT_sub : ∀ t : HTree, ∀ s ∈ subT t, ∀ w ∈ flattenT s, w ∈ flattenT t := by
  refine HTree.ind' ?_
  intro v ks IH s hs w hw
  rw [subT] at hs
  rcases List.mem_cons.mp hs with h | h
  · rw [← h]
    exact hw
  · rcases mem_subF.mp h with ⟨k, hk, hsk⟩
    rw [flattenT]
    exact List.mem_cons_of_mem _ (mem_flattenF.mpr ⟨k, hk, IH k hk s hsk w hw⟩)

theorem nodup_flattenF_part {ts : List HTree} (h : (flattenF ts).Nodup) :
    ∀ k ∈ ts, (flattenT k).Nodup := by
  induction ts with
  | nil => intro k hk; cases hk
  | cons t ts ih =>
    rw [flattenF, List.nodup_append] at h
    intro k hk
    rcases List.mem_cons.mp hk with h' | h'
    · rw [h']
      exact h.1
    · exact ih h.2.1 k h'

theorem nodup_subT : ∀ t : HTree, (flattenT t).Nodup → ∀ s ∈ subT t, (flattenT s).Nodup := by
  refine HTree.ind' ?_
  intro v ks IH hnd s hs
  rw [subT] at hs
  rcases List.mem_cons.mp hs with h | h
  · rw [h]
    exact hnd
  · rcases mem_subF.mp h with ⟨k, hk, hsk⟩
    rw [flattenT, List.nodup_cons] at hnd
    exact IH k hk (nodup_flattenF_part hnd.2 k hk) s hsk

theorem children_corr {t : HTree} (hnd : (flattenT t).Nodup) {s : HTree}
    (hs : s ∈ subT t) : (toGraphT t).children s.lab = s.kids.map HTree.lab := by
  show ((chT t).lookup s.lab).getD [] = _
  rw [lookup_of_mem (by rw [chT_keys]; exact hnd) (chT_sub_mem t s hs)]
  rfl

theorem rawNodes_corr {t : HTree} (hnd : (flattenT t).Nodup) :
    ∀ s, s ∈ subT t → ∀ fuel, htT s ≤ fuel →
      rawNodes (toGraphT t) fuel s.lab = flattenT s := by
  refine HTree.ind' ?_
  intro v ks IH hs fuel hfuel
  rcases fuel with _ | f
  · exact absurd hfuel (by rw [htT]; omega)
  have hch : (toGraphT t).children (HTree.mk v ks).lab = ks.map HTree.lab :=
    children_corr hnd hs
  have hf : htF ks ≤ f := by
    rw [htT] at hfuel
    omega
  have haux : ∀ ts : List HTree, (∀ k ∈ ts, k ∈ ks) → ∀ acc : List Nat,
      (ts.map HTree.lab).foldl (fun acc c => acc ++ rawNodes (toGraphT t) f c) acc =
        acc ++ flattenF ts := by
    intro ts
    induction ts with
    | nil => intro _ acc; rw [flattenF, List.map_nil, List.foldl_nil, List.append_nil]
    | cons k ts ih =>
      intro hsub acc
      have hk := hsub k (List.mem_cons_self _ _)
      rw [List.map_cons, List.foldl_cons,
        IH k hk (kid_mem_subT t _ hs k hk) f (le_trans (htT_le_htF hk) hf),
        ih (fun x hx => hsub x (List.mem_cons_of_mem _ hx)) _,
        flattenF, List.append_assoc]
  show HTree.lab (HTree.mk v ks) ::
      ((toGraphT t).children (HTree.lab (HTree.mk v ks))).foldl
        (fun acc c => acc ++ rawNodes (toGraphT t) f c) [] = _
  rw [hch, haux ks (fun k hk => hk) [], flattenT]
  rfl

theorem is_tree_corr {t : HTree} (hnd : (flattenT t).Nodup) {fuel : Nat}
    (hfuel : htT t ≤ fuel) : is_tree (toGraphT t) fuel = true := by
  have hfold : (toGraphT t).roots.foldl
      (fun acc r => acc ++ rawNodes (toGraphT t) fuel r) [] = flattenT t := by
    show ([] : List Nat) ++ rawNodes (toGraphT t) fuel t.lab = flattenT t
    rw [List.nil_append, rawNodes_corr hnd t (self_mem_subT t) fuel hfuel]
  rw [is_tree, hfold]
  simp [toGraphT, hnd]

theorem preAux_corr {t : HTree} (hnd : (flattenT t).Nodup) :
    ∀ s, s ∈ subT t → ∀ fuel vis, htT s ≤ fuel →
      (∀ w ∈ flattenT s, w ∉ vis) →
      preAux (toGraphT t) fuel s.lab vis = (vis ++ flattenT s, flattenT s) := by
  refine HTree.ind' ?_
  intro v ks IH hs fuel vis hfuel hdisj
  rcases fuel with _ | f
  · exact absurd hfuel (by rw [htT]; omega)
  have hch : (toGraphT t).children (HTree.mk v ks).lab = ks.map HTree.lab :=
    children_corr hnd hs
  have hf : htF ks ≤ f := by
    rw [htT] at hfuel
    omega
  have hvnotin : (HTree.mk v ks).lab ∉ vis :=
    hdisj _ (lab_mem_flattenT _)
  have hndk : (flattenF ks).Nodup := by
    have := nodup_subT t hnd _ hs
    rw [flattenT, List.nodup_cons] at this
    exact this.2
  have haux : ∀ ts : List HTree, (∀ k ∈ ts, k ∈ ks) → (flattenF ts).Nodup →
      ∀ vis0 ord0, (∀ w ∈ flattenF ts, w ∉ vis0) →
      (ts.map HTree.lab).foldl
        (fun acc c =>
          let r := preAux (toGraphT t) f c acc.1
          (r.1, acc.2 ++ r.2)) (vis0, ord0) =
        (vis0 ++ flattenF ts, ord0 ++ flattenF ts) := by
    intro ts
    induction ts with
    | nil =>
      intro _ _ vis0 ord0 _
      rw [flattenF, List.map_nil, List.foldl_nil, List.append_nil, List.append_nil]
    | cons k ts ih =>
      intro hsub hndts vis0 ord0 hd0
      have hk := hsub k (List.mem_cons_self _ _)
      rw [flattenF] at hndts hd0
      rw [List.nodup_append] at hndts
      rw [List.map_cons, List.foldl_cons]
      have hk1 : preAux (toGraphT t) f (HTree.lab k) vis0 =
          (vis0 ++ flattenT k, flattenT k) :=
        IH k hk (kid_mem_subT t _ hs k hk) f vis0 (le_trans (htT_le_htF hk) hf)
          (fun w hw => hd0 w (List.mem_append.mpr (Or.inl hw)))
      simp only [hk1]
      rw [ih (fun x hx => hsub x (List.mem_cons_of_mem _ hx)) hndts.2.1
        (vis0 ++ flattenT k) (ord0 ++ flattenT k) ?hfresh]
      · rw [flattenF, List.append_assoc, List.append_assoc]
      case hfresh =>
        intro w hw
        rw [List.mem_append]
        rintro (hcon | hcon)
        · exact hd0 w (List.mem_append.mpr (Or.inr hw)) hcon
        · exact hndts.2.2 hcon hw
  show (if (HTree.mk v ks).lab ∈ vis then (vis, []) else _) = _
  rw [if_neg hvnotin, hch]
  rw [haux ks (fun k hk => hk) hndk (vis ++ [(HTree.mk v ks).lab])
    [(HTree.mk v ks).lab] ?fresh2]
  · rw [flattenT, List.append_assoc]
    show (vis ++ ([v] ++ flattenF ks), [v] ++ flattenF ks) = _
    rw [List.singleton_append]
  case fresh2 =>
    intro w hw
    rw [List.mem_append, List.mem_singleton]
    rintro (hcon | hcon)
    · refine hdisj w ?_ hcon
      rw [flattenT]
      exact List.mem_cons_of_mem _ hw
    · have hndall := nodup_subT t hnd _ hs
      rw [flattenT, List.nodup_cons] at hndall
      have hwv : w = v := hcon
      exact hndall.1 (hwv ▸ hw)

theorem postAux_corr {t : HTree} (hnd : (flattenT t).Nodup) :
    ∀ s, s ∈ subT t → ∀ fuel vis, htT s ≤ fuel →
      (∀ w ∈ flattenT s, w ∉ vis) →
      postAux (toGraphT t) fuel s.lab vis = (vis ++ flattenT s, postT s) := by
  refine HTree.ind' ?_
  intro v ks IH hs fuel vis hfuel hdisj
  rcases fuel with _ | f
  · exact absurd hfuel (by rw [htT]; omega)
  have hch : (toGraphT t).children (HTree.mk v ks).lab = ks.map HTree.lab :=
    children_corr hnd hs
  have hf : htF ks ≤ f := by
    rw [htT] at hfuel
    omega
  have hvnotin : (HTree.mk v ks).lab ∉ vis :=
    hdisj _ (lab_mem_flattenT _)
  have hndk : (flattenF ks).Nodup := by
    have := nodup_subT t hnd _ hs
    rw [flattenT, List.nodup_cons] at this
    exact this.2
  have haux : ∀ ts : List HTree, (∀ k ∈ ts, k ∈ ks) → (flattenF ts).Nodup →
      ∀ vis0 ord0, (∀ w ∈ flattenF ts, w ∉ vis0) →
      (ts.map HTree.lab).foldl
        (fun acc c =>
          let r := postAux (toGraphT t) f c acc.1
          (r.1, acc.2 ++ r.2)) (vis0, ord0) =
        (vis0 ++ flattenF ts, ord0 ++ postF ts) := by
    intro ts
    induction ts with
    | nil =>
      intro _ _ vis0 ord0 _
      rw [flattenF, postF, List.map_nil, List.foldl_nil, List.append_nil,
        List.append_nil]
    | cons k ts ih =>
      intro hsub hndts vis0 ord0 hd0
      have hk := hsub k (List.mem_cons_self _ _)
      rw [flattenF] at hndts hd0
      rw [List.nodup_append] at hndts
      rw [List.map_cons, List.foldl_cons]
      have hk1 : postAux (toGraphT t) f (HTree.lab k) vis0 =
          (vis0 ++ flattenT k, postT k) :=
        IH k hk (kid_mem_subT t _ hs k hk) f vis0 (le_trans (htT_le_htF hk) hf)
          (fun w hw => hd0 w (List.mem_append.mpr (Or.inl hw)))
      simp only [hk1]
      rw [ih (fun x hx => hsub x (List.mem_cons_of_mem _ hx)) hndts.2.1
        (vis0 ++ flattenT k) (ord0 ++ postT k) ?hfresh]
      · rw [flattenF, postF, List.append_assoc, List.append_assoc]
      case hfresh =>
        intro w hw
        rw [List.mem_append]
        rintro (hcon | hcon)
        · exact hd0 w (List.mem_append.mpr (Or.inr hw)) hcon
        · exact hndts.2.2 hcon hw
  rw [postAux, if_neg hvnotin, hch]
  rw [haux ks (fun k hk => hk) hndk (vis ++ [(HTree.mk v ks).lab]) [] ?fresh2]
  · show (vis ++ [v] ++ flattenF ks, ([] ++ postF ks) ++ [v]) =
      (vis ++ flattenT (HTree.mk v ks), postT (HTree.mk v ks))
    rw [flattenT, postT, List.append_assoc, List.singleton_append, List.nil_append]
  case fresh2 =>
    intro w hw
    rw [List.mem_append, List.mem_singleton]
    rintro (hcon | hcon)
    · refine hdisj w ?_ hcon
      rw [flattenT]
      exact List.mem_cons_of_mem _ hw
    · have hndall := nodup_subT t hnd _ hs
      rw [flattenT, List.nodup_cons] at hndall
      have hwv : w = v := hcon
      exact hndall.1 (hwv ▸ hw)

theorem preList_corr {t : HTree} (hnd : (flattenT t).Nodup) {fuel : Nat}
    (hfuel : htT t ≤ fuel) : preList (toGraphT t) fuel = flattenT t := by
  show ((preAux (toGraphT t) fuel t.lab []).1, [] ++ (preAux (toGraphT t) fuel t.lab []).2).2 = _
  rw [preAux_corr hnd t (self_mem_subT t) fuel [] hfuel (fun w _ => List.not_mem_nil w)]
  simp

theorem postList_corr {t : HTree} (hnd : (flattenT t).Nodup) {fuel : Nat}
    (hfuel : htT t ≤ fuel) : postList (toGraphT t) fuel = postT t := by
  show ((postAux (toGraphT t) fuel t.lab []).1, [] ++ (postAux (toGraphT t) fuel t.lab []).2).2 = _
  rw [postAux_corr hnd t (self_mem_subT t) fuel [] hfuel (fun w _ => List.not_mem_nil w)]
  simp

theorem foldl_oadd_some (inc : Nat → Rat) :
    ∀ (l : List Nat) (a : Rat),
      l.foldl (fun acc c => oadd acc (some (inc c))) (some a) =
        some (a + (l.map inc).sum) := by
  intro l
  induction l with
  | nil => intro a; simp
  | cons c l ih =>
    intro a
    rw [List.foldl_cons]
    show l.foldl (fun acc c => oadd acc (some (inc c))) (some (a + inc c)) = _
    rw [ih]
    rw [List.map_cons, List.sum_cons]
    ring_nf

theorem genExc_corr {t : HTree} (hnd : (flattenT t).Nodup) {fuel : Nat}
    (hfuel : htT t ≤ fuel) (inc : Nat → Rat) {s : HTree} (hs : s ∈ subT t) :
    generate_exclusive (toGraphT t) fuel (fun w => some (inc w)) s.lab =
      some (inc s.lab - ((s.kids.map HTree.lab).map inc).sum) := by
  rw [generate_exclusive]
  rw [if_pos (by rw [preList_corr hnd hfuel]; exact flattenT_sub t s hs _ (lab_mem_flattenT s))]
  rw [children_corr hnd hs]
  have := foldl_oadd_some inc (s.kids.map HTree.lab) 0
  rw [this, osub]
  rw [zero_add]

mutual
/-- The intended inclusive value at each subtree: exclusive at the root
plus the sum over the whole subtree below. -/
def incValT (E : Nat → Rat) : HTree → Rat
  | .mk v ks => E v + incValF E ks
def incValF (E : Nat → Rat) : List HTree → Rat
  | [] => 0
  | t :: ts => incValT E t + incValF E ts
end

theorem incValF_eq (E : Nat → Rat) (ts : List HTree) :
    incValF E ts = (ts.map (incValT E)).sum := by
  induction ts with
  | nil => rfl
  | cons t ts ih => rw [incValF, ih, List.map_cons, List.sum_cons]

theorem nansum_all_some (x : Rat) (l : List Rat) :
    nansum (some x :: l.map some) = some (x + l.sum) := by
  rw [nansum]
  have : (some x :: l.map some).filterMap id = x :: l := by
    simp [List.filterMap_cons]
  rw [this]
  simp

theorem lab_mem_subF {s : HTree} {ts : List HTree} (h : s ∈ subF ts) :
    s.lab ∈ flattenF ts := by
  rcases mem_subF.mp h with ⟨k, hk, hsk⟩
  exact mem_flattenF.mpr ⟨k, hk, flattenT_sub k s hsk _ (lab_mem_flattenT s)⟩

theorem subtree_fold_corr {t : HTree} (hnd : (flattenT t).Nodup) (E : Nat → Rat) :
    ∀ s, s ∈ subT t → ∀ T : Tbl, (∀ w ∈ flattenT s, T w = some (E w)) →
      (∀ w, w ∉ flattenT s → (postT s).foldl (sumStep (toGraphT t)) T w = T w) ∧
      (∀ s' ∈ subT s, (postT s).foldl (sumStep (toGraphT t)) T s'.lab =
        some (incValT E s')) := by
  refine HTree.ind' ?_
  intro v ks IH hs T hT
  have hnds : (flattenT (HTree.mk v ks)).Nodup := nodup_subT t hnd _ hs
  rw [flattenT, List.nodup_cons] at hnds
  have haux : ∀ ts : List HTree, (∀ k ∈ ts, k ∈ ks) → (flattenF ts).Nodup →
      ∀ T0 : Tbl, (∀ w ∈ flattenF ts, T0 w = some (E w)) →
      (∀ w, w ∉ flattenF ts → (postF ts).foldl (sumStep (toGraphT t)) T0 w = T0 w) ∧
      (∀ s' ∈ subF ts, (postF ts).foldl (sumStep (toGraphT t)) T0 s'.lab =
        some (incValT E s')) := by
    intro ts
    induction ts with
    | nil =>
      intro _ _ T0 _
      exact ⟨fun w _ => by rw [postF, List.foldl_nil], fun s' hs' => by cases hs'⟩
    | cons k ts ih =>
      intro hsub hndts T0 hT0
      rw [flattenF, List.nodup_append] at hndts
      have hk := hsub k (List.mem_cons_self _ _)
      have hrec := IH k hk (kid_mem_subT t _ hs k hk) T0
        (fun w hw => hT0 w (by rw [flattenF]; exact List.mem_append.mpr (Or.inl hw)))
      have hrec2 := ih (fun x hx => hsub x (List.mem_cons_of_mem _ hx)) hndts.2.1
        ((postT k).foldl (sumStep (toGraphT t)) T0)
        (fun w hw => by
          rw [hrec.1 w (fun hc => hndts.2.2 hc hw)]
          exact hT0 w (by rw [flattenF]; exact List.mem_append.mpr (Or.inr hw)))
      have hsplit : (postF (k :: ts)).foldl (sumStep (toGraphT t)) T0 =
          (postF ts).foldl (sumStep (toGraphT t))
            ((postT k).foldl (sumStep (toGraphT t)) T0) := by
        rw [postF, List.foldl_append]
      constructor
      · intro w hw
        rw [flattenF, List.mem_append] at hw
        push_neg at hw
        rw [hsplit, hrec2.1 w hw.2, hrec.1 w hw.1]
      · intro s' hs'
        rw [subF] at hs'
        rcases List.mem_append.mp hs' with h | h
        · have hlab : s'.lab ∈ flattenT k := flattenT_sub k s' h _ (lab_mem_flattenT s')
          rw [hsplit, hrec2.1 s'.lab (fun hc => hndts.2.2 hlab hc), hrec.2 s' h]
        · rw [hsplit, hrec2.2 s' h]
  have hch : (toGraphT t).children v = ks.map HTree.lab := children_corr hnd hs
  have hsplit2 : (postT (HTree.mk v ks)).foldl (sumStep (toGraphT t)) T =
      sumStep (toGraphT t) ((postF ks).foldl (sumStep (toGraphT t)) T) v := by
    rw [postT, List.foldl_append, List.foldl_cons, List.foldl_nil]
  have hforest := haux ks (fun k hk => hk) hnds.2 T
    (fun w hw => hT w (by rw [flattenT]; exact List.mem_cons_of_mem _ hw))
  constructor
  · intro w hw
    rw [flattenT, List.mem_cons] at hw
    push_neg at hw
    rw [hsplit2, sumStep]
    by_cases hke : ((toGraphT t).children v).isEmpty
    · rw [if_pos hke]
      exact hforest.1 w hw.2
    · rw [if_neg hke, Function.update_noteq hw.1]
      exact hforest.1 w hw.2
  · intro s' hs'
    rw [subT] at hs'
    rcases List.mem_cons.mp hs' with h | h
    · rw [h]
      show (postT (HTree.mk v ks)).foldl (sumStep (toGraphT t)) T v = _
      rw [hsplit2, sumStep]
      cases ks with
      | nil =>
        rw [if_pos (by rw [hch]; rfl)]
        have hTv : T v = some (E v) := hT v (by rw [flattenT]; exact List.mem_cons_self _ _)
        rw [postF, List.foldl_nil, hTv, incValT, incValF]
        rw [add_zero]
      | cons k0 ks0 =>
        rw [if_neg (by rw [hch]; simp)]
        rw [Function.update_same]
        have hRfv : (postF (k0 :: ks0)).foldl (sumStep (toGraphT t)) T v =
            some (E v) := by
          rw [hforest.1 v hnds.1]
          exact hT v (by rw [flattenT]; exact List.mem_cons_self _ _)
        have hkids : ((toGraphT t).children v).map
            ((postF (k0 :: ks0)).foldl (sumStep (toGraphT t)) T) =
            ((k0 :: ks0).map (incValT E)).map some := by
          rw [hch, List.map_map, List.map_map]
          refine List.map_congr_left ?_
          intro k hk
          show (postF (k0 :: ks0)).foldl (sumStep (toGraphT t)) T k.lab = _
          rw [hforest.2 k (mem_subF.mpr ⟨k, hk, self_mem_subT k⟩)]
          rfl
        rw [hRfv, hkids, nansum_all_some, incValT, incValF_eq]
    · have hlabne : s'.lab ≠ v := by
        intro hc
        exact hnds.1 (hc ▸ lab_mem_subF h)
      rw [hsplit2, sumStep]
      by_cases hke : ((toGraphT t).children v).isEmpty
      · rw [if_pos hke]
        exact hforest.2 s' h
      · rw [if_neg hke, Function.update_noteq hlabne]
        exact hforest.2 s' h

theorem flatten_to_sub : ∀ t : HTree, ∀ v ∈ flattenT t, ∃ s ∈ subT t, s.lab = v := by
  refine HTree.ind' ?_
  intro v0 ks IH v hv
  rw [flattenT] at hv
  rcases List.mem_cons.mp hv with h | h
  · exact ⟨.mk v0 ks, self_mem_subT _, h.symm⟩
  · rcases mem_flattenF.mp h with ⟨k, hk, hvk⟩
    rcases IH k hk v hvk with ⟨s, hs, hlab⟩
    exact ⟨s, by rw [subT]; exact List.mem_cons_of_mem _ (mem_subF.mpr ⟨k, hk, hs⟩), hlab⟩

/-- C2 (amended): on every GraphFrame whose graph is a tree and whose
inclusive column has a value at every node, running
`generate_exclusive_columns` and then `update_inclusive_columns` yields
columns where, at every node, inclusive = exclusive + sum of the direct
children's inclusive values. The original claim (for arbitrary DAGs) is
refuted by `c2_roundtrip_counterexample`. -/
theorem c2_roundtrip_on_trees (t : HTree) (fuel : Nat) (inc : Nat → Rat) (ms : List String)
    (hms : ms ≠ []) (hnd : (flattenT t).Nodup) (hfuel : htT t ≤ fuel) :
    ∃ E I : Nat → Rat,
      (∀ v ∈ flattenT t,
        generate_exclusive (toGraphT t) fuel (fun w => some (inc w)) v = some (E v)) ∧
      (∀ v ∈ flattenT t,
        update_inclusive (toGraphT t) fuel ms
          (generate_exclusive (toGraphT t) fuel (fun w => some (inc w)))
          (fun w => some (inc w)) v = some (I v)) ∧
      (∀ p ∈ chT t, I p.1 = E p.1 + (p.2.map I).sum) := by
  set E : Nat → Rat :=
    fun v => inc v - (((toGraphT t).children v).map inc).sum with hE
  set excTbl : Tbl := generate_exclusive (toGraphT t) fuel (fun w => some (inc w))
    with hexc
  have hgen : ∀ v ∈ flattenT t, excTbl v = some (E v) := by
    intro v hv
    rcases flatten_to_sub t v hv with ⟨s, hs, hlab⟩
    rw [← hlab, hexc, genExc_corr hnd hfuel inc hs]
    show some (inc s.lab - ((s.kids.map HTree.lab).map inc).sum) =
      some (inc s.lab - (((toGraphT t).children s.lab).map inc).sum)
    rw [children_corr hnd hs]
  have hupd : update_inclusive (toGraphT t) fuel ms excTbl (fun w => some (inc w)) =
      (postT t).foldl (sumStep (toGraphT t)) excTbl := by
    rw [update_inclusive, if_neg (by simp [hms]), subgraph_sum,
      is_tree_corr hnd hfuel, if_pos rfl, subtree_sum, postList_corr hnd hfuel]
  have hfold := subtree_fold_corr hnd E t (self_mem_subT t) excTbl hgen
  set I : Nat → Rat :=
    fun v => (update_inclusive (toGraphT t) fuel ms excTbl
      (fun w => some (inc w)) v).getD 0 with hI
  have hfin : ∀ s ∈ subT t, update_inclusive (toGraphT t) fuel ms excTbl
      (fun w => some (inc w)) s.lab = some (incValT E s) := by
    intro s hs
    rw [hupd]
    exact hfold.2 s hs
  refine ⟨E, I, hgen, ?_, ?_⟩
  · intro v hv
    rcases flatten_to_sub t v hv with ⟨s, hs, hlab⟩
    rw [← hlab, hfin s hs]
    show some (incValT E s) = some ((update_inclusive (toGraphT t) fuel ms excTbl
      (fun w => some (inc w)) s.lab).getD 0)
    rw [hfin s hs, Option.getD_some]
  · intro p hp
    rcases chT_mem_sub t p hp with ⟨s, hs, hlab, hkids⟩
    have hIv : I p.1 = incValT E s := by
      show (update_inclusive (toGraphT t) fuel ms excTbl
        (fun w => some (inc w)) p.1).getD 0 = _
      rw [← hlab, hfin s hs]
      rfl
    have hIkids : p.2.map I = s.kids.map (incValT E) := by
      rw [← hkids, List.map_map]
      refine List.map_congr_left ?_
      intro k hk
      show (update_inclusive (toGraphT t) fuel ms excTbl
        (fun w => some (inc w)) k.lab).getD 0 = incValT E k
      rw [hfin k (kid_mem_subT t s hs k hk)]
      rfl
    rw [hIv, hIkids]
    rcases s with ⟨v0, ks0⟩
    rw [incValT, incValF_eq]
    have : (HTree.mk v0 ks0).lab = p.1 := hlab
    rw [← this]
    rfl

/-- A concrete two-node tree for the C2 witness. -/
def c2Tree : HTree := .mk 0 [.mk 1 []]

/-- Witness for C2 (amended) on the concrete two-node tree with
inclusive values 2 and 3. -/
theorem c2_roundtrip_on_trees_witness :
    ∃ E I : Nat → Rat,
      (∀ v ∈ flattenT c2Tree,
        generate_exclusive (toGraphT c2Tree) 5 (fun w => some ((w : Nat) + 2 : Rat)) v =
          some (E v)) ∧
      (∀ v ∈ flattenT c2Tree,
        update_inclusive (toGraphT c2Tree) 5 ["time"]
          (generate_exclusive (toGraphT c2Tree) 5 (fun w => some ((w : Nat) + 2 : Rat)))
          (fun w => some ((w : Nat) + 2 : Rat)) v = some (I v)) ∧
      (∀ p ∈ chT c2Tree, I p.1 = E p.1 + (p.2.map I).sum) :=
  c2_roundtrip_on_trees c2Tree 5 (fun w => (w : Nat) + 2) ["time"] (by simp)
    (by
      show (flattenT (.mk 0 [.mk 1 []])).Nodup
      rw [flattenT, flattenF, flattenT, flattenF]
      simp)
    (by
      show htT (.mk 0 [.mk 1 []]) ≤ 5
      rw [htT, htF, htT, htF]
      simp)

/-- One edge of the original call graph (`child in node.children`). -/
def Step (g : HGraph) (a b : Nat) : Prop := b ∈ g.children a

/-- `FirstKept g K c k`: starting from `c`, the kept node `k` is reachable by
a (possibly empty) path whose nodes before `k` are all outside the kept set
`K`.  These are exactly the clones that `rewire` transitively connects for
`c`: a kept node connects only itself, a removed node connects the first
kept nodes below it. -/
inductive FirstKept (g : HGraph) (K : List Nat) : Nat → Nat → Prop where
  | kept : ∀ {k}, k ∈ K → FirstKept g K k k
  | step : ∀ {c d k}, c ∉ K → d ∈ g.children c → FirstKept g K d k →
      FirstKept g K c k

theorem FirstKept.mem_kept {g : HGraph} {K : List Nat} {c k : Nat}
    (h : FirstKept g K c k) : k ∈ K := by
  induction h with
  | kept h => exact h
  | step _ _ _ ih => exact ih

theorem FirstKept.kept_eq {g : HGraph} {K : List Nat} {c k : Nat}
    (h : FirstKept g K c k) (hc : c ∈ K) : k = c := by
  cases h with
  | kept _ => rfl
  | step hc' _ _ => exact absurd hc hc'

theorem FirstKept.path {g : HGraph} {K : List Nat} {c k : Nat}
    (h : FirstKept g K c k) : Relation.ReflTransGen (Step g) c k := by
  induction h with
  | kept _ => exact .refl
  | step _ hd _ ih => exact .head hd ih

theorem FirstKept.rank_le {g : HGraph} {K : List Nat} {R : Nat → Nat}
    (hR : ∀ v c, c ∈ g.children v → R c < R v) {c k : Nat}
    (h : FirstKept g K c k) : R k ≤ R c := by
  induction h with
  | kept _ => exact le_refl _
  | step _ hd _ ih => exact le_trans ih (le_of_lt (hR _ _ hd))

/-- Pointwise growth of a `rewire` state: the visited set, the `connections`
sets and the new child lists only ever gain elements. -/
def SLE (s t : RWState) : Prop :=
  (∀ v, v ∈ s.visited → v ∈ t.visited) ∧
  (∀ v k, k ∈ s.conn v → k ∈ t.conn v) ∧
  (∀ p k, k ∈ s.newChild p → k ∈ t.newChild p)

theorem SLE.refl (s : RWState) : SLE s s :=
  ⟨fun _ h => h, fun _ _ h => h, fun _ _ h => h⟩

theorem SLE.trans {s t u : RWState} (h1 : SLE s t) (h2 : SLE t u) : SLE s u :=
  ⟨fun v h => h2.1 v (h1.1 v h),
   fun v k h => h2.2.1 v k (h1.2.1 v k h),
   fun p k h => h2.2.2 p k (h1.2.2 p k h)⟩

/-- A node is fully processed: a removed node's `connections` entry holds
all its first kept descendants, a kept node has all first kept descendants
of its children connected beneath its clone, and all its children have been
visited. -/
def Done (g : HGraph) (K : List Nat) (s : RWState) (v : Nat) : Prop :=
  (v ∉ K → ∀ k, FirstKept g K v k → k ∈ s.conn v) ∧
  (v ∈ K → ∀ c ∈ g.children v, ∀ k, FirstKept g K c k → k ∈ s.newChild v) ∧
  (∀ c ∈ g.children v, c ∈ s.visited)

theorem Done.mono {g : HGraph} {K : List Nat} {s t : RWState} {v : Nat}
    (h : SLE s t) (hd : Done g K s v) : Done g K t v :=
  ⟨fun hv k hk => h.2.1 v k (hd.1 hv k hk),
   fun hv c hc k hk => h.2.2 v k (hd.2.1 hv c hc k hk),
   fun c hc => h.1 c (hd.2.2 c hc)⟩

/-- The invariant maintained through `rewire`, stratified by a rank `R`
that strictly decreases along edges (the graph is a DAG): every visited
node of rank below `r` is fully processed. -/
def GInv (g : HGraph) (K : List Nat) (R : Nat → Nat) (r : Nat)
    (s : RWState) : Prop :=
  ∀ v ∈ s.visited, R v < r → Done g K s v

theorem GInv.mono_rank {g : HGraph} {K : List Nat} {R : Nat → Nat}
    {r r' : Nat} {s : RWState} (h : r' ≤ r) (hg : GInv g K R r s) :
    GInv g K R r' s :=
  fun v hv hlt => hg v hv (lt_of_lt_of_le hlt h)

/-- Every kept node's `connections` entry contains its own clone (true of
the initial `old_to_new` seeding and preserved forever). -/
def KInv (K : List Nat) (s : RWState) : Prop := ∀ v ∈ K, v ∈ s.conn v

/-- Every visited node is fully processed (the invariant between the
top-level per-root calls, where no call is in progress). -/
def AllDone (g : HGraph) (K : List Nat) (s : RWState) : Prop :=
  ∀ v ∈ s.visited, Done g K s v

theorem connectOne_visited (par : Option Nat) (s : RWState) (n : Nat) :
    (connectOne par s n).visited = s.visited := by
  rcases par with _ | p
  all_goals rw [connectOne]
  · split <;> rfl
  · split <;> rfl

theorem connectOne_conn (par : Option Nat) (s : RWState) (n : Nat) :
    (connectOne par s n).conn = s.conn := by
  rcases par with _ | p
  all_goals rw [connectOne]
  · split <;> rfl
  · split <;> rfl

theorem connectOne_mono (par : Option Nat) (s : RWState) (n : Nat) :
    SLE s (connectOne par s n) := by
  refine ⟨fun v h => by rw [connectOne_visited]; exact h,
    fun v k h => by rw [connectOne_conn]; exact h, fun p k h => ?_⟩
  rcases par with _ | q
  all_goals rw [connectOne]
  · split <;> exact h
  · split
    · exact h
    · show k ∈ Function.update s.newChild q (s.newChild q ++ [n]) p
      rcases eq_or_ne p q with hpq | hpq
      · subst hpq
        rw [Function.update_same]
        exact List.mem_append_left _ h
      · rw [Function.update_noteq hpq]
        exact h

theorem foldl_connectOne_visited (par : Option Nat) :
    ∀ (L : List Nat) (s : RWState), (L.foldl (connectOne par) s).visited = s.visited := by
  intro L
  induction L with
  | nil => intro s; rfl
  | cons a L ih =>
    intro s
    rw [List.foldl_cons, ih, connectOne_visited]

theorem foldl_connectOne_conn (par : Option Nat) :
    ∀ (L : List Nat) (s : RWState), (L.foldl (connectOne par) s).conn = s.conn := by
  intro L
  induction L with
  | nil => intro s; rfl
  | cons a L ih =>
    intro s
    rw [List.foldl_cons, ih, connectOne_conn]

theorem foldl_connectOne_mono (par : Option Nat) :
    ∀ (L : List Nat) (s : RWState), SLE s (L.foldl (connectOne par) s) := by
  intro L
  induction L with
  | nil => intro s; exact SLE.refl s
  | cons a L ih =>
    intro s
    exact SLE.trans (connectOne_mono par s a) (ih (connectOne par s a))

theorem connectOne_mem (p : Nat) (s : RWState) (n : Nat) :
    n ∈ (connectOne (some p) s n).newChild p := by
  rw [connectOne]
  split
  · assumption
  · show n ∈ Function.update s.newChild p (s.newChild p ++ [n]) p
    rw [Function.update_same]
    exact List.mem_append_right _ (List.mem_singleton.mpr rfl)

theorem foldl_connectOne_mem (p : Nat) :
    ∀ (L : List Nat) (s : RWState) (n : Nat), n ∈ L →
      n ∈ (L.foldl (connectOne (some p)) s).newChild p := by
  intro L
  induction L with
  | nil => intro s n h; exact absurd h (List.not_mem_nil n)
  | cons a L ih =>
    intro s n h
    rw [List.foldl_cons]
    rcases List.mem_cons.mp h with h | h
    · subst h
      exact (foldl_connectOne_mono (some p) L _).2.2 p n (connectOne_mem p s n)
    · exact ih _ n h

/-- The state at the head of a `rewire` call, after the
`for n in connections[node]` loop. -/
def startState (par : Option Nat) (s : RWState) (node : Nat) : RWState :=
  (s.conn node).foldl (connectOne par) s

/-- The parent handed to the recursive calls: the node's own clone if kept
(`old_to_new.get(node)`), otherwise the inherited `new_parent`. -/
def rewireEff (K : List Nat) (node : Nat) (par : Option Nat) : Option Nat :=
  if node ∈ K then some node else par

/-- The child-processing loop of `rewire`, threading the state and taking
the union of the returned transitive connection sets. -/
def rwFold (g : HGraph) (K : List Nat) (fuel : Nat) (eff : Option Nat)
    (l : List Nat) (p : RWState × List Nat) : RWState × List Nat :=
  l.foldl
    (fun acc c =>
      ((rewire g K fuel c eff acc.1).1, acc.2 ∪ (rewire g K fuel c eff acc.1).2))
    p

/-- The middle of a `rewire` call: either the node was already visited (no
descent, empty transitive set) or it is marked visited and the children are
processed. -/
def rewireCore (g : HGraph) (K : List Nat) (fuel : Nat) (node : Nat)
    (par : Option Nat) (s : RWState) : RWState × List Nat :=
  if node ∈ (startState par s node).visited then (startState par s node, [])
  else
    rwFold g K fuel (rewireEff K node par) (g.children node)
      ({ startState par s node with
          visited := (startState par s node).visited ++ [node] }, [])

theorem rewire_succ (g : HGraph) (K : List Nat) (fuel node : Nat)
    (par : Option Nat) (s : RWState) :
    rewire g K (fuel + 1) node par s =
      if node ∈ K then ((rewireCore g K fuel node par s).1, [node])
      else
        ({ (rewireCore g K fuel node par s).1 with
            conn := Function.update (rewireCore g K fuel node par s).1.conn node
              ((rewireCore g K fuel node par s).1.conn node ∪
                (rewireCore g K fuel node par s).2) },
         (rewireCore g K fuel node par s).1.conn node ∪
           (rewireCore g K fuel node par s).2) := by
  rw [rewire]
  rw [rewireCore, startState, rewireEff, rwFold]

/-- Everything one call to `rewire` guarantees: state growth, preservation
of the kept-clone and processed-node invariants, the node becomes visited,
newly visited nodes sit at or below the node's rank, the returned set holds
every first kept descendant of the node, and (beneath a parent clone) every
first kept descendant is connected under that parent. -/
def RewireOut (g : HGraph) (K : List Nat) (R : Nat → Nat) (node : Nat)
    (s : RWState) (out : RWState × List Nat) (par : Option Nat) : Prop :=
  SLE s out.1 ∧ KInv K out.1 ∧ node ∈ out.1.visited ∧
  (∀ v ∈ out.1.visited, v ∈ s.visited ∨ v = node ∨ R v < R node) ∧
  GInv g K R (R node + 1) out.1 ∧
  (∀ k, FirstKept g K node k → k ∈ out.2) ∧
  (∀ P, par = some P → ∀ k, FirstKept g K node k → k ∈ out.1.newChild P)

theorem rewireFold_spec (g : HGraph) (K : List Nat) (R : Nat → Nat)
    (hR : ∀ v c, c ∈ g.children v → R c < R v)
    (fuel node : Nat) (eff : Option Nat) (V : Nat → Prop)
    (ih : ∀ n' p' s', R n' < fuel → GInv g K R (R n' + 1) s' → KInv K s' →
        RewireOut g K R n' s' (rewire g K fuel n' p' s') p')
    (hrank : R node ≤ fuel) :
    ∀ l : List Nat, (∀ c ∈ l, c ∈ g.children node) → ∀ t : RWState, ∀ ac : List Nat,
      KInv K t → GInv g K R (R node) t → (∀ v ∈ t.visited, V v ∨ R v < R node) →
      SLE t (rwFold g K fuel eff l (t, ac)).1 ∧
      KInv K (rwFold g K fuel eff l (t, ac)).1 ∧
      GInv g K R (R node) (rwFold g K fuel eff l (t, ac)).1 ∧
      (∀ v ∈ (rwFold g K fuel eff l (t, ac)).1.visited, V v ∨ R v < R node) ∧
      (∀ x ∈ ac, x ∈ (rwFold g K fuel eff l (t, ac)).2) ∧
      (∀ c ∈ l,
        (∀ k, FirstKept g K c k → k ∈ (rwFold g K fuel eff l (t, ac)).2) ∧
        (∀ P, eff = some P → ∀ k, FirstKept g K c k →
          k ∈ (rwFold g K fuel eff l (t, ac)).1.newChild P) ∧
        c ∈ (rwFold g K fuel eff l (t, ac)).1.visited) := by
  intro l
  induction l with
  | nil =>
    intro _ t ac hKt hGt hVt
    exact ⟨SLE.refl t, hKt, hGt, hVt, fun x hx => hx, fun c hc => absurd hc (List.not_mem_nil c)⟩
  | cons c l ihl =>
    intro hl t ac hKt hGt hVt
    have hc : c ∈ g.children node := hl c (List.mem_cons_self c l)
    have hRc : R c < R node := hR node c hc
    have step := ih c eff t (lt_of_lt_of_le hRc hrank)
      (GInv.mono_rank (by omega) hGt) hKt
    obtain ⟨m1, k1, vis1, nv1, g1, ret1, edge1⟩ := step
    have hfold : rwFold g K fuel eff (c :: l) (t, ac) =
        rwFold g K fuel eff l
          ((rewire g K fuel c eff t).1, ac ∪ (rewire g K fuel c eff t).2) := rfl
    rw [hfold]
    have hG1 : GInv g K R (R node) (rewire g K fuel c eff t).1 := by
      intro v hv hvlt
      rcases nv1 v hv with h | h | h
      · exact Done.mono m1 (hGt v h hvlt)
      · subst h
        exact g1 v hv (by omega)
      · exact g1 v hv (by omega)
    have hV1 : ∀ v ∈ (rewire g K fuel c eff t).1.visited, V v ∨ R v < R node := by
      intro v hv
      rcases nv1 v hv with h | h | h
      · exact hVt v h
      · right; subst h; exact hRc
      · right; omega
    have rest := ihl (fun c' hc' => hl c' (List.mem_cons_of_mem c hc'))
      (rewire g K fuel c eff t).1 (ac ∪ (rewire g K fuel c eff t).2) k1 hG1 hV1
    obtain ⟨m2, k2, g2, v2, acm2, per2⟩ := rest
    refine ⟨SLE.trans m1 m2, k2, g2, v2, ?_, ?_⟩
    · intro x hx
      exact acm2 x (List.mem_union_iff.mpr (Or.inl hx))
    · intro c' hc'
      rcases List.mem_cons.mp hc' with h | h
      · subst h
        refine ⟨fun k hk => acm2 k (List.mem_union_iff.mpr (Or.inr (ret1 k hk))),
          fun P hP k hk => m2.2.2 P k (edge1 P hP k hk),
          m2.1 c' vis1⟩
      · exact per2 c' h

theorem rewire_spec (g : HGraph) (K : List Nat) (R : Nat → Nat)
    (hR : ∀ v c, c ∈ g.children v → R c < R v) :
    ∀ (fuel node : Nat) (par : Option Nat) (s : RWState), R node < fuel →
      GInv g K R (R node + 1) s → KInv K s →
      RewireOut g K R node s (rewire g K fuel node par s) par := by
  intro fuel
  induction fuel with
  | zero =>
    intro node par s h
    exact absurd h (Nat.not_lt_zero _)
  | succ fuel ih =>
    intro node par s hfl hG hK
    have hs1v : (startState par s node).visited = s.visited :=
      foldl_connectOne_visited par _ s
    have hs1c : (startState par s node).conn = s.conn :=
      foldl_connectOne_conn par _ s
    have hs1m : SLE s (startState par s node) := foldl_connectOne_mono par _ s
    rw [rewire_succ]
    by_cases hvis : node ∈ s.visited
    · -- the node has already been visited: no descent
      have hcond : node ∈ (startState par s node).visited := by
        rw [hs1v]; exact hvis
      have hcore : rewireCore g K fuel node par s = (startState par s node, []) := by
        rw [rewireCore, if_pos hcond]
      rw [hcore]
      have hDone : Done g K s node := hG node hvis (Nat.lt_succ_self _)
      by_cases hk : node ∈ K
      · rw [if_pos hk]
        refine ⟨hs1m, ?_, hcond, ?_, ?_, ?_, ?_⟩
        · intro v hv
          show v ∈ (startState par s node).conn v
          rw [hs1c]
          exact hK v hv
        · intro v hv
          have hv' : v ∈ (startState par s node).visited := hv
          rw [hs1v] at hv'
          exact Or.inl hv'
        · intro v hv hlt
          have hv' : v ∈ (startState par s node).visited := hv
          rw [hs1v] at hv'
          exact Done.mono hs1m (hG v hv' hlt)
        · intro k hk'
          have : k = node := FirstKept.kept_eq hk' hk
          subst this
          exact List.mem_singleton.mpr rfl
        · intro P hP k hk'
          have : k = node := FirstKept.kept_eq hk' hk
          subst this
          subst hP
          exact foldl_connectOne_mem P (s.conn k) s k (hK k hk)
      · rw [if_neg hk]
        have hsle : SLE s
            ({ startState par s node with
                conn := Function.update (startState par s node).conn node
                  ((startState par s node).conn node ∪ []) }) := by
          refine ⟨fun v hv => ?_, fun v k hkc => ?_, fun p k hkc => hs1m.2.2 p k hkc⟩
          · show v ∈ (startState par s node).visited
            rw [hs1v]; exact hv
          · show k ∈ Function.update (startState par s node).conn node
              ((startState par s node).conn node ∪ []) v
            rcases eq_or_ne v node with hv | hv
            · subst hv
              rw [Function.update_same]
              refine List.mem_union_iff.mpr (Or.inl ?_)
              rw [hs1c]; exact hkc
            · rw [Function.update_noteq hv, hs1c]
              exact hkc
        refine ⟨hsle, ?_, hcond, ?_, ?_, ?_, ?_⟩
        · intro v hv
          exact hsle.2.1 v v (hK v hv)
        · intro v hv
          have hv' : v ∈ (startState par s node).visited := hv
          rw [hs1v] at hv'
          exact Or.inl hv'
        · intro v hv hlt
          have hv' : v ∈ (startState par s node).visited := hv
          rw [hs1v] at hv'
          exact Done.mono hsle (hG v hv' hlt)
        · intro k hk'
          refine List.mem_union_iff.mpr (Or.inl ?_)
          show k ∈ (startState par s node).conn node
          rw [hs1c]
          exact hDone.1 hk k hk'
        · intro P hP k hk'
          subst hP
          have hkc : k ∈ s.conn node := hDone.1 hk k hk'
          exact foldl_connectOne_mem P (s.conn node) s k hkc
    · -- first visit: mark visited and descend into the children
      have hcond : node ∉ (startState par s node).visited := by
        rw [hs1v]; exact hvis
      have hcore : rewireCore g K fuel node par s =
          rwFold g K fuel (rewireEff K node par) (g.children node)
            ({ startState par s node with
                visited := (startState par s node).visited ++ [node] }, []) := by
        rw [rewireCore, if_neg hcond]
      rw [hcore]
      have ht0v : ({ startState par s node with
          visited := (startState par s node).visited ++ [node] } : RWState).visited =
          s.visited ++ [node] := by
        show (startState par s node).visited ++ [node] = s.visited ++ [node]
        rw [hs1v]
      have hm0 : SLE s { startState par s node with
          visited := (startState par s node).visited ++ [node] } := by
        refine ⟨fun v hv => ?_, hs1m.2.1, hs1m.2.2⟩
        rw [ht0v]
        exact List.mem_append_left _ hv
      have hKt0 : KInv K { startState par s node with
          visited := (startState par s node).visited ++ [node] } := by
        intro v hv
        exact hm0.2.1 v v (hK v hv)
      have hGt0 : GInv g K R (R node) { startState par s node with
          visited := (startState par s node).visited ++ [node] } := by
        intro v hv hlt
        rw [ht0v] at hv
        rcases List.mem_append.mp hv with h | h
        · exact Done.mono hm0 (hG v h (Nat.lt_succ_of_lt hlt))
        · rw [List.mem_singleton.mp h] at hlt
          exact absurd hlt (lt_irrefl _)
      have hVt0 : ∀ v ∈ ({ startState par s node with
          visited := (startState par s node).visited ++ [node] } : RWState).visited,
          (v ∈ s.visited ∨ v = node) ∨ R v < R node := by
        intro v hv
        rw [ht0v] at hv
        rcases List.mem_append.mp hv with h | h
        · exact Or.inl (Or.inl h)
        · exact Or.inl (Or.inr (List.mem_singleton.mp h))
      have hfold := rewireFold_spec g K R hR fuel node (rewireEff K node par)
        (fun v => v ∈ s.visited ∨ v = node) ih (by omega) (g.children node)
        (fun c hc => hc)
        ({ startState par s node with
            visited := (startState par s node).visited ++ [node] }) []
        hKt0 hGt0 hVt0
      obtain ⟨mF, kF, gF, vF, acF, perF⟩ := hfold
      have hnodeT : node ∈ ({ startState par s node with
          visited := (startState par s node).visited ++ [node] } : RWState).visited := by
        rw [ht0v]
        exact List.mem_append_right _ (List.mem_singleton.mpr rfl)
      have hnodeF : node ∈ (rwFold g K fuel (rewireEff K node par) (g.children node)
          ({ startState par s node with
              visited := (startState par s node).visited ++ [node] }, [])).1.visited :=
        mF.1 node hnodeT
      have hmsF : SLE s (rwFold g K fuel (rewireEff K node par) (g.children node)
          ({ startState par s node with
              visited := (startState par s node).visited ++ [node] }, [])).1 :=
        SLE.trans hm0 mF
      by_cases hk : node ∈ K
      · rw [if_pos hk]
        refine ⟨hmsF, kF, hnodeF, ?_, ?_, ?_, ?_⟩
        · intro v hv
          rcases vF v hv with h | h
          · rcases h with h | h
            · exact Or.inl h
            · exact Or.inr (Or.inl h)
          · exact Or.inr (Or.inr h)
        · intro v hv hlt
          rcases vF v hv with h | h
          · rcases h with h | h
            · exact Done.mono hmsF (hG v h hlt)
            · subst h
              refine ⟨fun hnk => absurd hk hnk, fun _ c hc k hk' => ?_,
                fun c hc => (perF c hc).2.2⟩
              refine (perF c hc).2.1 v ?_ k hk'
              rw [rewireEff, if_pos hk]
          · exact gF v hv h
        · intro k hk'
          have : k = node := FirstKept.kept_eq hk' hk
          subst this
          exact List.mem_singleton.mpr rfl
        · intro P hP k hk'
          have : k = node := FirstKept.kept_eq hk' hk
          subst this
          subst hP
          refine mF.2.2 P k ?_
          show k ∈ (startState (some P) s k).newChild P
          exact foldl_connectOne_mem P (s.conn k) s k (hK k hk)
      · rw [if_neg hk]
        set F := rwFold g K fuel (rewireEff K node par) (g.children node)
          ({ startState par s node with
              visited := (startState par s node).visited ++ [node] }, []) with hFdef
        have hsle' : SLE F.1
            { F.1 with
              conn := Function.update F.1.conn node (F.1.conn node ∪ F.2) } := by
          refine ⟨fun v hv => hv, fun v k hkc => ?_, fun p k hkc => hkc⟩
          show k ∈ Function.update F.1.conn node (F.1.conn node ∪ F.2) v
          rcases eq_or_ne v node with hv | hv
          · subst hv
            rw [Function.update_same]
            exact List.mem_union_iff.mpr (Or.inl hkc)
          · rw [Function.update_noteq hv]
            exact hkc
        refine ⟨SLE.trans hmsF hsle', ?_, hnodeF, ?_, ?_, ?_, ?_⟩
        · intro v hv
          exact hsle'.2.1 v v (kF v hv)
        · intro v hv
          rcases vF v hv with h | h
          · rcases h with h | h
            · exact Or.inl h
            · exact Or.inr (Or.inl h)
          · exact Or.inr (Or.inr h)
        · intro v hv hlt
          rcases vF v hv with h | h
          · rcases h with h | h
            · exact Done.mono (SLE.trans hmsF hsle') (hG v h hlt)
            · subst h
              refine ⟨fun _ k hk' => ?_, fun hknK => absurd hknK hk,
                fun c hc => (perF c hc).2.2⟩
              cases hk' with
              | kept hknK => exact absurd hknK hk
              | step hnn hd hfk =>
                show k ∈ Function.update F.1.conn v (F.1.conn v ∪ F.2) v
                rw [Function.update_same]
                exact List.mem_union_iff.mpr (Or.inr ((perF _ hd).1 k hfk))
          · exact Done.mono hsle' (gF v hv h)
        · intro k hk'
          cases hk' with
          | kept hknK => exact absurd hknK hk
          | step hnn hd hfk =>
            exact List.mem_union_iff.mpr (Or.inr ((perF _ hd).1 k hfk))
        · intro P hP k hk'
          cases hk' with
          | kept hknK => exact absurd hknK hk
          | step hnn hd hfk =>
            refine (perF _ hd).2.1 P ?_ k hfk
            rw [rewireEff, if_neg hk]
            exact hP

theorem rewireRootsFold_spec (g : HGraph) (K : List Nat) (R : Nat → Nat)
    (hR : ∀ v c, c ∈ g.children v → R c < R v) (fuel : Nat) :
    ∀ l : List Nat, (∀ r ∈ l, R r < fuel) → ∀ s : RWState,
      AllDone g K s → KInv K s →
      AllDone g K (l.foldl (fun s r => (rewire g K fuel r none s).1) s) ∧
      KInv K (l.foldl (fun s r => (rewire g K fuel r none s).1) s) ∧
      SLE s (l.foldl (fun s r => (rewire g K fuel r none s).1) s) ∧
      (∀ r ∈ l, r ∈ (l.foldl (fun s r => (rewire g K fuel r none s).1) s).visited) := by
  intro l
  induction l with
  | nil =>
    intro _ s hAD hK
    exact ⟨hAD, hK, SLE.refl s, fun r hr => absurd hr (List.not_mem_nil r)⟩
  | cons r l ihl =>
    intro hl s hAD hK
    have hG : GInv g K R (R r + 1) s := fun v hv _ => hAD v hv
    have step := rewire_spec g K R hR fuel r none s (hl r (List.mem_cons_self r l)) hG hK
    obtain ⟨m1, k1, vis1, nv1, g1, _, _⟩ := step
    have hAD1 : AllDone g K (rewire g K fuel r none s).1 := by
      intro v hv
      rcases nv1 v hv with h | h | h
      · exact Done.mono m1 (hAD v h)
      · subst h
        exact g1 v hv (Nat.lt_succ_self _)
      · exact g1 v hv (Nat.lt_succ_of_lt h)
    have rest := ihl (fun r' hr' => hl r' (List.mem_cons_of_mem r hr'))
      (rewire g K fuel r none s).1 hAD1 k1
    obtain ⟨hAD2, hK2, m2, vis2⟩ := rest
    refine ⟨hAD2, hK2, SLE.trans m1 m2, ?_⟩
    intro r' hr'
    rcases List.mem_cons.mp hr' with h | h
    · subst h
      exact m2.1 r' vis1
    · exact vis2 r' h

theorem rewireRoots_spec (g : HGraph) (K : List Nat) (R : Nat → Nat)
    (hR : ∀ v c, c ∈ g.children v → R c < R v) (fuel : Nat)
    (hfuel : ∀ r ∈ g.roots, R r < fuel) :
    AllDone g K (rewireRoots g K fuel) ∧ KInv K (rewireRoots g K fuel) ∧
    (∀ r ∈ g.roots, r ∈ (rewireRoots g K fuel).visited) := by
  have hAD0 : AllDone g K (initRW K) := by
    intro v hv
    exact absurd hv (List.not_mem_nil v)
  have hK0 : KInv K (initRW K) := by
    intro v hv
    show v ∈ (if v ∈ K then [v] else [])
    rw [if_pos hv]
    exact List.mem_singleton.mpr rfl
  have h := rewireRootsFold_spec g K R hR fuel g.roots hfuel (initRW K) hAD0 hK0
  exact ⟨h.1, h.2.1, h.2.2.2⟩

theorem visited_closed_reach {g : HGraph} {K : List Nat} {s : RWState}
    (hAD : AllDone g K s) {a b : Nat} (ha : a ∈ s.visited)
    (h : Relation.ReflTransGen (Step g) a b) : b ∈ s.visited := by
  induction h with
  | refl => exact ha
  | tail _ hbc ih => exact (hAD _ ih).2.2 _ hbc

theorem firstKept_of_path {g : HGraph} {K : List Nat} {c B : Nat}
    (h : Relation.ReflTransGen (Step g) c B) (hB : B ∈ K) :
    ∃ k, k ∈ K ∧ FirstKept g K c k ∧ Relation.ReflTransGen (Step g) k B := by
  induction h using Relation.ReflTransGen.head_induction_on with
  | refl => exact ⟨B, hB, .kept hB, .refl⟩
  | head hstep htail ih =>
    rename_i a a'
    by_cases ha : a ∈ K
    · exact ⟨a, ha, .kept ha, .head hstep htail⟩
    · obtain ⟨k, hk, hfk, hpk⟩ := ih
      exact ⟨k, hk, .step ha hstep hfk, hpk⟩

theorem newAncestor {g : HGraph} {K : List Nat} (R : Nat → Nat) {s : RWState}
    (hR : ∀ v c, c ∈ g.children v → R c < R v) (hAD : AllDone g K s) :
    ∀ A, A ∈ s.visited → A ∈ K → ∀ B, B ∈ K → Relation.TransGen (Step g) A B →
      Relation.TransGen (fun x y => y ∈ s.newChild x) A B := by
  have key : ∀ n A, R A = n → A ∈ s.visited → A ∈ K → ∀ B, B ∈ K →
      Relation.TransGen (Step g) A B →
      Relation.TransGen (fun x y => y ∈ s.newChild x) A B := by
    intro n
    induction n using Nat.strong_induction_on with
    | _ n ihn =>
      intro A hRA hAv hAK B hBK hAB
      obtain ⟨c0, hc0, hpath⟩ := Relation.TransGen.head'_iff.mp hAB
      obtain ⟨k1, hk1K, hfk, hk1B⟩ := firstKept_of_path hpath hBK
      have hnew : k1 ∈ s.newChild A := (hAD A hAv).2.1 hAK c0 hc0 k1 hfk
      rcases Relation.ReflTransGen.cases_head hk1B with heq | ⟨d, hd, hdB⟩
      · rw [← heq]
        exact Relation.TransGen.single hnew
      · have hk1B' : Relation.TransGen (Step g) k1 B := Relation.TransGen.head' hd hdB
        have hk1v : k1 ∈ s.visited :=
          visited_closed_reach hAD hAv (Relation.ReflTransGen.head hc0 hfk.path)
        have hrank : R k1 < n := by
          rw [← hRA]
          exact lt_of_le_of_lt (FirstKept.rank_le hR hfk) (hR A c0 hc0)
        exact Relation.TransGen.head hnew (ihn (R k1) hrank k1 rfl hk1v hk1K B hBK hk1B')
  intro A hAv hAK B hBK hAB
  exact key (R A) A rfl hAv hAK B hBK hAB

/-- The node map that `squash` applies to every row before aggregation:
clones keep their node's id, and `normalize`'s merge map then sends each
merged-away clone to the kept sibling it was merged into (`merges.get(n,
n)`).  A node's identity across the squash is exactly this map. -/
def squashNodeMap (g : HGraph) (rows : List URow) (fuel : Nat) (n : Nat) : Nat :=
  mergeGet (normalizeMerges
    { roots := (rewireRoots g ((rows.map (fun r => r.node)).dedup) fuel).newRoots,
      children := (rewireRoots g ((rows.map (fun r => r.node)).dedup) fuel).newChild,
      frame := g.frame } fuel) n

theorem squash_rows_remap (g : HGraph) (rows : List URow)
    (em im : List String) (fuel : Nat) :
    (squash g rows em im fuel).2 =
      groupAgg (em ++ im)
        (rows.map fun r => { r with node := squashNodeMap g rows fuel r.node }) := rfl

theorem mergeGet_cases (merges : List (Nat × Nat)) (n : Nat) :
    mergeGet merges n = n ∨
      ∃ q ∈ merges, q.1 = n ∧ mergeGet merges n = q.2 := by
  rcases hf : merges.find? (fun p => p.1 == n) with _ | q
  · left
    rw [mergeGet, hf]
    rfl
  · right
    refine ⟨q, List.mem_of_find?_eq_some hf, ?_, ?_⟩
    · have hq := List.find?_some hf
      exact beq_iff_eq.mp hq
    · rw [mergeGet, hf]
      rfl

theorem squash_children_lift (g : HGraph) (rows : List URow)
    (em im : List String) (fuel : Nat) (x y : Nat)
    (hy : y ∈ (rewireRoots g ((rows.map (fun r => r.node)).dedup) fuel).newChild x) :
    squashNodeMap g rows fuel y ∈
      (squash g rows em im fuel).1.children (squashNodeMap g rows fuel x) := by
  have hchild : ∀ v, (squash g rows em im fuel).1.children v =
      (((v :: ((normalizeMerges
          { roots := (rewireRoots g ((rows.map (fun r => r.node)).dedup) fuel).newRoots,
            children := (rewireRoots g ((rows.map (fun r => r.node)).dedup) fuel).newChild,
            frame := g.frame } fuel).filter (fun p => p.2 == v)).map Prod.fst).flatMap
        (fun u => (rewireRoots g ((rows.map (fun r => r.node)).dedup) fuel).newChild u)).map
        (squashNodeMap g rows fuel)).dedup := fun v => rfl
  rw [hchild, List.mem_dedup]
  refine List.mem_map.mpr ⟨y, ?_, rfl⟩
  refine List.mem_flatMap.mpr ⟨x, ?_, hy⟩
  rcases mergeGet_cases (normalizeMerges
      { roots := (rewireRoots g ((rows.map (fun r => r.node)).dedup) fuel).newRoots,
        children := (rewireRoots g ((rows.map (fun r => r.node)).dedup) fuel).newChild,
        frame := g.frame } fuel) x with hx | ⟨q, hq, hq1, hq2⟩
  · have hx' : squashNodeMap g rows fuel x = x := hx
    rw [hx']
    exact List.mem_cons_self x _
  · have hx' : squashNodeMap g rows fuel x = q.2 := hq2
    rw [hx']
    refine List.mem_cons_of_mem _ (List.mem_map.mpr ⟨q, List.mem_filter.mpr ⟨hq, ?_⟩, hq1⟩)
    exact beq_self_eq_true q.2

/-- C4: if nodes `A` and `B` both have rows in the table (so both survive
the squash) and `A` is a strict ancestor of `B` in the original graph (with
`A` itself in the graph, i.e. on a path from a root), then `A` remains an
ancestor of `B` in the squashed graph.  A node's identity in the squashed
GraphFrame is `squashNodeMap` of its old id — the very map `squash` applies
to every row (`squash_rows_remap`) — which is the identity except on clones
that `normalize` merged into an equal-frame sibling.  The rank `R`,
strictly decreasing along edges, witnesses that the graph is a DAG. -/
theorem c4_squash_ancestor_preservation (g : HGraph) (rows : List URow)
    (em im : List String) (fuel : Nat) (R : Nat → Nat) (A B : Nat)
    (hR : ∀ v c, c ∈ g.children v → R c < R v)
    (hfuel : ∀ r ∈ g.roots, R r < fuel)
    (hA : A ∈ rows.map (fun r => r.node))
    (hB : B ∈ rows.map (fun r => r.node))
    (hroot : ∃ r ∈ g.roots, r = A ∨ Relation.TransGen (Step g) r A)
    (hanc : Relation.TransGen (Step g) A B) :
    Relation.TransGen (fun x y => y ∈ (squash g rows em im fuel).1.children x)
      (squashNodeMap g rows fuel A) (squashNodeMap g rows fuel B) := by
  have hAK : A ∈ (rows.map (fun r => r.node)).dedup := List.mem_dedup.mpr hA
  have hBK : B ∈ (rows.map (fun r => r.node)).dedup := List.mem_dedup.mpr hB
  obtain ⟨hAD, hKI, hvis⟩ :=
    rewireRoots_spec g ((rows.map (fun r => r.node)).dedup) R hR fuel hfuel
  have hAvis : A ∈ (rewireRoots g ((rows.map (fun r => r.node)).dedup) fuel).visited := by
    obtain ⟨r, hr, hcase⟩ := hroot
    rcases hcase with h | h
    · rw [← h]
      exact hvis r hr
    · exact visited_closed_reach hAD (hvis r hr) h.to_reflTransGen
  have hTG := newAncestor R hR hAD A hAvis hAK B hBK hanc
  exact Relation.TransGen.lift (squashNodeMap g rows fuel)
    (fun x y hy => squash_children_lift g rows em im fuel x y hy) hTG

/-- The C4 witness graph: root 0 with children 1 and 2; 1 → 4 → 3 and
2 → 5 → 6.  Node 2 carries no row and is squashed away, which makes the
clones of 1 and 5 siblings under the root; their frames are equal, so the
squash's normalization merges clone 5 into clone 1, and 1 absorbs 5's
child 6. -/
def c4Graph : HGraph :=
  { roots := [0],
    children := fun v =>
      match v with | 0 => [1, 2] | 1 => [4] | 2 => [5] | 4 => [3] | 5 => [6] | _ => [],
    frame := fun v => if v == 5 then 1 else v }

/-- Rows at every node except 2: node 2 is squashed away. -/
def c4Rows : List URow :=
  [{ node := 0, val := fun _ => none, missing := none },
   { node := 1, val := fun _ => none, missing := none },
   { node := 3, val := fun _ => none, missing := none },
   { node := 4, val := fun _ => none, missing := none },
   { node := 5, val := fun _ => none, missing := none },
   { node := 6, val := fun _ => none, missing := none }]

/-- Witness for C4 on a squash whose normalization really merges: clone 5
is merged into its equal-frame sibling clone 1 (the merge map is exactly
`[(5, 1)]`), node 1 absorbs 5's child 6, and node 1 — a strict ancestor of
node 3 through the dropped-node-free chain 1 → 4 → 3 — remains its
ancestor in the squashed graph. -/
theorem c4_squash_ancestor_preservation_witness :
    normalizeMerges
      { roots := (rewireRoots c4Graph ((c4Rows.map (fun r => r.node)).dedup) 4).newRoots,
        children := (rewireRoots c4Graph ((c4Rows.map (fun r => r.node)).dedup) 4).newChild,
        frame := c4Graph.frame } 4 = [(5, 1)] ∧
    (squash c4Graph c4Rows ["time"] [] 4).1.children 1 = [4, 6] ∧
    Relation.TransGen
      (fun x y => y ∈ (squash c4Graph c4Rows ["time"] [] 4).1.children x)
      (squashNodeMap c4Graph c4Rows 4 1) (squashNodeMap c4Graph c4Rows 4 3) := by
  refine ⟨by decide, by decide, ?_⟩
  refine c4_squash_ancestor_preservation c4Graph c4Rows ["time"] [] 4
    (fun v => match v with | 0 => 3 | 1 => 2 | 2 => 2 | 4 => 1 | 5 => 1 | _ => 0)
    1 3 ?_ ?_ ?_ ?_ ?_ ?_
  · intro v c hc
    rcases v with _ | _ | _ | _ | _ | _ | v
    · have : c = 1 ∨ c = 2 := by
        simpa [c4Graph] using hc
      rcases this with rfl | rfl <;> decide
    · have : c = 4 := by
        simpa [c4Graph] using hc
      subst this
      decide
    · have : c = 5 := by
        simpa [c4Graph] using hc
      subst this
      decide
    · simp [c4Graph] at hc
    · have : c = 3 := by
        simpa [c4Graph] using hc
      subst this
      decide
    · have : c = 6 := by
        simpa [c4Graph] using hc
      subst this
      decide
    · simp [c4Graph] at hc
  · intro r hr
    have : r = 0 := by
      simpa [c4Graph] using hr
    subst this
    decide
  · decide
  · decide
  · have h01 : Step c4Graph 0 1 := by
      show (1 : Nat) ∈ c4Graph.children 0
      decide
    exact ⟨0, by decide, Or.inr (Relation.TransGen.single h01)⟩
  · have h14 : Step c4Graph 1 4 := by
      show (4 : Nat) ∈ c4Graph.children 1
      decide
    have h43 : Step c4Graph 4 3 := by
      show (3 : Nat) ∈ c4Graph.children 4
      decide
    exact Relation.TransGen.head h14 (Relation.TransGen.single h43)
